import Mathlib

/-!
Verification of the `lfu` Go repository: a bounded LFU (least-frequently-used)
cache with per-entry TTL expiry, a background sweeper, an eviction callback and
hit/miss/eviction counters.

The shallow embedding below translates the Go source:
* Go maps (`keyMap`, `freqMap`) become association lists with the usual
  lookup/insert/delete operations (`alookup`, `aset`, `adel`).
* A frequency bucket (`freqList`, a `container/list` of entries) becomes a
  `List K` of the keys it holds, front = most recently pushed.  `pushFront`
  is `cons`, `remove` is `berase`, `removeOldest` is `getLast?`/`dropLast`.
* `time.Time` values and `time.Duration` become `Int` (`time.Since x = now - x`).
* The eviction callback becomes a log `evLog` of the `(key, value)` pairs it
  was invoked with; `hasCallback` models `onEvict != nil`.
* The `stop` channel becomes a `stopClosed` flag; `close` of an already closed
  channel panics in Go, which `Stop` models with `Except.error`.
-/

namespace LFU

/-- Association-list lookup, mirroring a Go map read `m[a]`. -/
def alookup {α β : Type} [DecidableEq α] : List (α × β) → α → Option β
  | [], _ => none
  | (a', b) :: rest, a => if a = a' then some b else alookup rest a

/-- Association-list write, mirroring a Go map write `m[a] = b`
(replace the binding if present, append it otherwise). -/
def aset {α β : Type} [DecidableEq α] : List (α × β) → α → β → List (α × β)
  | [], a, b => [(a, b)]
  | (a', b') :: rest, a, b =>
      if a = a' then (a, b) :: rest else (a', b') :: aset rest a b

/-- Association-list delete, mirroring Go `delete(m, a)`
(removes the first binding of `a`; keys are unique in a Go map). -/
def adel {α β : Type} [DecidableEq α] : List (α × β) → α → List (α × β)
  | [], _ => []
  | (a', b') :: rest, a =>
      if a = a' then rest else (a', b') :: adel rest a

/-- Remove the first occurrence of an element from a list; mirrors
`freqList.remove`, which unlinks one entry from a bucket. -/
def berase {α : Type} [DecidableEq α] : List α → α → List α
  | [], _ => []
  | b :: rest, a => if a = b then rest else b :: berase rest a

/-- One cached record: the fields of `entry` in `entry.go` (the `node`
back-pointer is represented by membership of the key in a bucket). -/
structure EntryV (V : Type) where
  value : V
  frequency : Int
  createdAt : Int
deriving Repr, DecidableEq

/-- The TTL-enabled cache, `LFUCache` of the TTL source file.  Buckets hold
keys; the entry data lives in `keyMap`. -/
structure Cache (K V : Type) where
  capacity : Int
  size : Int
  ttl : Int
  cleanupInterval : Int
  keyMap : List (K × EntryV V)
  freqMap : List (Int × List K)
  minFreq : Int
  stopClosed : Bool
  hasCallback : Bool
  hits : Int
  misses : Int
  evictions : Int
  evLog : List (K × V)
deriving Repr, DecidableEq

variable {K V : Type} [DecidableEq K]

/-- The bucket currently stored for frequency `f` (`[]` when absent,
matching a nil `*freqList` treated as an empty bucket). -/
def bucketOf (c : Cache K V) (f : Int) : List K :=
  (alookup c.freqMap f).getD []

/-- `New`: construct the TTL cache.  The sweeper goroutine itself is modelled
by explicit `cleanupExpired` steps; `hasCallback` records `onEvict != nil`. -/
def New (capacity ttl cleanupInterval : Int) (hasCallback : Bool) : Cache K V :=
  { capacity := capacity, size := 0, ttl := ttl, cleanupInterval := cleanupInterval,
    keyMap := [], freqMap := [], minFreq := 0,
    stopClosed := false, hasCallback := hasCallback,
    hits := 0, misses := 0, evictions := 0, evLog := [] }

/-- `increment`: move an entry from bucket `oldFreq` to bucket `oldFreq+1`,
deleting the old bucket if it empties and bumping `minFreq` when the emptied
bucket was the minimum.  Go receives the entry pointer; here the entry is
looked up by key (`increment` is only ever called on an entry of `keyMap`). -/
def increment (c : Cache K V) (key : K) : Cache K V :=
  match alookup c.keyMap key with
  | none => c
  | some e =>
    let oldFreq := e.frequency
    let newFreq := oldFreq + 1
    let keyMap1 := aset c.keyMap key { e with frequency := newFreq }
    let removed := berase (bucketOf c oldFreq) key
    let freqMap1 :=
      if removed = [] then adel c.freqMap oldFreq
      else aset c.freqMap oldFreq removed
    let minFreq1 :=
      if removed = [] ∧ c.minFreq = oldFreq then c.minFreq + 1 else c.minFreq
    let newBucket := (alookup freqMap1 newFreq).getD []
    { c with keyMap := keyMap1,
             freqMap := aset freqMap1 newFreq (key :: newBucket),
             minFreq := minFreq1 }

/-- `evict`: pop the least-recently-touched key of the `minFreq` bucket and
remove it, counting an eviction and firing the callback.  The victim's entry
is read from `keyMap` (in Go the bucket holds the entry itself; whenever the
bucket/`keyMap` agreement invariant holds the two coincide). -/
def evict (c : Cache K V) : Cache K V :=
  match alookup c.freqMap c.minFreq with
  | none => c
  | some bucket =>
    match bucket.getLast? with
    | none => c
    | some victim =>
      match alookup c.keyMap victim with
      | none => c
      | some e =>
        let rest := bucket.dropLast
        { c with
            keyMap := adel c.keyMap victim,
            size := c.size - 1,
            evictions := c.evictions + 1,
            freqMap := if rest = [] then adel c.freqMap c.minFreq
                       else aset c.freqMap c.minFreq rest,
            evLog := if c.hasCallback then c.evLog ++ [(victim, e.value)]
                     else c.evLog }

/-- `deleteKey`: the shared deletion routine used by lazy TTL expiry and the
sweeper.  Removes the entry from its bucket (bumping `minFreq` when the
emptied bucket was the minimum), removes the key, decrements `size`, counts
an eviction, fires the callback. -/
def deleteKey (c : Cache K V) (key : K) : Cache K V :=
  match alookup c.keyMap key with
  | none => c
  | some e =>
    let removed := berase (bucketOf c e.frequency) key
    let freqMap1 :=
      if removed = [] then adel c.freqMap e.frequency
      else aset c.freqMap e.frequency removed
    let minFreq1 :=
      if removed = [] ∧ c.minFreq = e.frequency then c.minFreq + 1 else c.minFreq
    { c with keyMap := adel c.keyMap key,
             freqMap := freqMap1,
             minFreq := minFreq1,
             size := c.size - 1,
             evictions := c.evictions + 1,
             evLog := if c.hasCallback then c.evLog ++ [(key, e.value)]
                      else c.evLog }

/-- `Get`: miss when absent or expired (`now - createdAt > ttl`); an expired
entry is removed through `deleteKey` before the miss is counted.  A hit
promotes the entry's frequency and counts a hit. -/
def Get (c : Cache K V) (now : Int) (key : K) : Option V × Cache K V :=
  match alookup c.keyMap key with
  | none => (none, { c with misses := c.misses + 1 })
  | some e =>
    if now - e.createdAt > c.ttl then
      let c1 := deleteKey c key
      (none, { c1 with misses := c1.misses + 1 })
    else
      let c1 := increment c key
      (some e.value, { c1 with hits := c1.hits + 1 })

/-- `Set`: no-op when `capacity == 0`; on an existing key replace the value,
reset the timestamp and promote the frequency; on a new key evict first if
the cache is full, then insert at frequency 1 and reset `minFreq` to 1. -/
def Set (c : Cache K V) (now : Int) (key : K) (value : V) : Cache K V :=
  if c.capacity = 0 then c
  else
    match alookup c.keyMap key with
    | some e =>
        increment
          { c with keyMap := aset c.keyMap key { e with value := value, createdAt := now } }
          key
    | none =>
        let c1 := if c.size ≥ c.capacity then evict c else c
        { c1 with
            keyMap := aset c1.keyMap key { value := value, frequency := 1, createdAt := now },
            freqMap := aset c1.freqMap 1 (key :: bucketOf c1 1),
            minFreq := 1,
            size := c1.size + 1 }

/-- `Len`: the current entry count. -/
def Len (c : Cache K V) : Int := c.size

/-- `Stats`: snapshot of the three counters. -/
def Stats (c : Cache K V) : Int × Int × Int := (c.hits, c.misses, c.evictions)

/-- `cleanupExpired`: one sweeper pass; iterates the entries and applies
`deleteKey` to each whose age exceeds `ttl`. -/
def cleanupExpired (c : Cache K V) (now : Int) : Cache K V :=
  c.keyMap.foldl
    (fun acc kv => if now - kv.2.createdAt > acc.ttl then deleteKey acc kv.1 else acc) c

/-- `Stop`: `close(c.stop)`.  Closing an already-closed Go channel panics,
modelled as `Except.error ()`. -/
def Stop (c : Cache K V) : Except Unit (Cache K V) :=
  if c.stopClosed then Except.error ()
  else Except.ok { c with stopClosed := true }

/-! ### The plain LFU cache (the source file without TTL, stats or callback)

It shares `entry` (including the never-written `createdAt` field, which stays
at the Go zero value, modelled as `0`). -/

/-- `LFUCache` of the plain source file. -/
structure PlainCache (K V : Type) where
  capacity : Int
  size : Int
  keyMap : List (K × EntryV V)
  freqMap : List (Int × List K)
  minFreq : Int
deriving Repr, DecidableEq

/-- Bucket lookup for the plain cache. -/
def pbucketOf (p : PlainCache K V) (f : Int) : List K :=
  (alookup p.freqMap f).getD []

/-- `New` of the plain cache. -/
def PNew (capacity : Int) : PlainCache K V :=
  { capacity := capacity, size := 0, keyMap := [], freqMap := [], minFreq := 0 }

/-- `increment` of the plain cache (same routine as the TTL one). -/
def pincrement (p : PlainCache K V) (key : K) : PlainCache K V :=
  match alookup p.keyMap key with
  | none => p
  | some e =>
    let oldFreq := e.frequency
    let newFreq := oldFreq + 1
    let keyMap1 := aset p.keyMap key { e with frequency := newFreq }
    let removed := berase (pbucketOf p oldFreq) key
    let freqMap1 :=
      if removed = [] then adel p.freqMap oldFreq
      else aset p.freqMap oldFreq removed
    let minFreq1 :=
      if removed = [] ∧ p.minFreq = oldFreq then p.minFreq + 1 else p.minFreq
    let newBucket := (alookup freqMap1 newFreq).getD []
    { p with keyMap := keyMap1,
             freqMap := aset freqMap1 newFreq (key :: newBucket),
             minFreq := minFreq1 }

/-- `evict` of the plain cache: no counter and no callback; the victim taken
from the bucket is deleted from the key table unconditionally. -/
def pevict (p : PlainCache K V) : PlainCache K V :=
  match alookup p.freqMap p.minFreq with
  | none => p
  | some bucket =>
    match bucket.getLast? with
    | none => p
    | some victim =>
      let rest := bucket.dropLast
      { p with keyMap := adel p.keyMap victim,
               size := p.size - 1,
               freqMap := if rest = [] then adel p.freqMap p.minFreq
                          else aset p.freqMap p.minFreq rest }

/-- `Get` of the plain cache: no expiry, no counters. -/
def pGet (p : PlainCache K V) (key : K) : Option V × PlainCache K V :=
  match alookup p.keyMap key with
  | none => (none, p)
  | some e => (some e.value, pincrement p key)

/-- `Set` of the plain cache (`createdAt` keeps the Go zero value). -/
def pSet (p : PlainCache K V) (key : K) (value : V) : PlainCache K V :=
  if p.capacity = 0 then p
  else
    match alookup p.keyMap key with
    | some e =>
        pincrement { p with keyMap := aset p.keyMap key { e with value := value } } key
    | none =>
        let p1 := if p.size ≥ p.capacity then pevict p else p
        { p1 with
            keyMap := aset p1.keyMap key { value := value, frequency := 1, createdAt := 0 },
            freqMap := aset p1.freqMap 1 (key :: pbucketOf p1 1),
            minFreq := 1,
            size := p1.size + 1 }

/-- `Len` of the plain cache. -/
def pLen (p : PlainCache K V) : Int := p.size

/-! ### Operation sequences, reachability and ghost recency stamps -/

/-- One cache operation (`sweep` is one sweeper pass at the given time). -/
inductive COp (K V : Type) where
  | get (now : Int) (key : K)
  | set (now : Int) (key : K) (value : V)
  | len
  | sweep (now : Int)

/-- State transition of one operation on the TTL cache. -/
def applyOp (c : Cache K V) : COp K V → Cache K V
  | .get now k => (Get c now k).2
  | .set now k v => Set c now k v
  | .len => c
  | .sweep now => cleanupExpired c now

/-- Instrumented state: the cache plus a ghost record of when each key was
last touched (hit by `Get` or written by `Set`), on a logical clock that
ticks once per operation.  The ghost part never influences the cache. -/
structure IState (K V : Type) where
  cache : Cache K V
  touch : List (K × Nat)
  clock : Nat

/-- Ghost stamp of a key: the clock value of its last touch. -/
def stampOf (touch : List (K × Nat)) (k : K) : Nat :=
  (alookup touch k).getD 0

/-- Instrumented transition: the cache moves by `applyOp`; a successful `Get`
and any effective `Set` stamp the key with the current clock. -/
def iApply (s : IState K V) (op : COp K V) : IState K V :=
  { cache := applyOp s.cache op,
    touch :=
      match op with
      | .get now k => if (Get s.cache now k).1.isSome then aset s.touch k s.clock else s.touch
      | .set _ k _ => if s.cache.capacity = 0 then s.touch else aset s.touch k s.clock
      | .len => s.touch
      | .sweep _ => s.touch,
    clock := s.clock + 1 }

/-- Instrumented states reachable from a fresh cache. -/
inductive IReachable : IState K V → Prop where
  | init (capacity ttl cleanupInterval : Int) (hasCallback : Bool) :
      IReachable ⟨New capacity ttl cleanupInterval hasCallback, [], 0⟩
  | step {s : IState K V} (h : IReachable s) (op : COp K V) : IReachable (iApply s op)

/-- Cache states reachable from a fresh cache by Get/Set/Len/sweep steps. -/
def Reachable (c : Cache K V) : Prop :=
  ∃ s : IState K V, IReachable s ∧ s.cache = c

/-- Structural well-formedness of a cache state (spec §3 invariants 1, 3 and
the bookkeeping facts the operations maintain). -/
structure WF (c : Cache K V) : Prop where
  km_nodup : (c.keyMap.map Prod.fst).Nodup
  fm_nodup : (c.freqMap.map Prod.fst).Nodup
  bucket_nodup : ∀ f B, alookup c.freqMap f = some B → B.Nodup
  bucket_ne : ∀ f B, alookup c.freqMap f = some B → B ≠ []
  in_bucket : ∀ k e, alookup c.keyMap k = some e → k ∈ bucketOf c e.frequency
  bucket_freq : ∀ f B, alookup c.freqMap f = some B →
    ∀ k ∈ B, ∃ e, alookup c.keyMap k = some e ∧ e.frequency = f
  freq_pos : ∀ k e, alookup c.keyMap k = some e → 1 ≤ e.frequency
  min_le : ∀ k e, alookup c.keyMap k = some e → c.minFreq ≤ e.frequency
  size_eq : c.size = c.keyMap.length

/-- Capacity discipline: with a non-negative capacity the size never exceeds
it, and a full cache always has a live bucket at `minFreq` (so the eviction
routine finds a victim). -/
def CapInv (c : Cache K V) : Prop :=
  0 ≤ c.capacity →
    c.size ≤ c.capacity ∧
      (c.size = c.capacity → 1 ≤ c.capacity → alookup c.freqMap c.minFreq ≠ none)

/-- Ghost recency invariant over a raw frequency index: every bucket is
ordered by strictly decreasing touch stamp (front = most recent), and all
stamps are below the clock. -/
def stampsOK0 (fm : List (Int × List K)) (touch : List (K × Nat)) (clock : Nat) : Prop :=
  (∀ f B, alookup fm f = some B →
     B.Pairwise (fun a b => stampOf touch b < stampOf touch a)) ∧
  (∀ f B, alookup fm f = some B → ∀ k ∈ B, stampOf touch k < clock)

/-- Ghost recency invariant of an instrumented state. -/
def stampsOK (s : IState K V) : Prop :=
  stampsOK0 s.cache.freqMap s.touch s.clock

/-- The combined inductive invariant of instrumented runs. -/
def IGood (s : IState K V) : Prop :=
  WF s.cache ∧ CapInv s.cache ∧ stampsOK s

/-- Observable result of one operation. -/
inductive Obs (V : Type) where
  | got (r : Option V)
  | done
  | length (n : Int)
deriving Repr, DecidableEq

/-- Trace of observations of the TTL cache over an operation sequence. -/
def trace (c : Cache K V) : List (COp K V) → List (Obs V)
  | [] => []
  | .get now k :: rest => .got (Get c now k).1 :: trace (Get c now k).2 rest
  | .set now k v :: rest => .done :: trace (Set c now k v) rest
  | .len :: rest => .length (Len c) :: trace c rest
  | .sweep now :: rest => .done :: trace (cleanupExpired c now) rest

/-- Trace of observations of the plain cache (times ignored, no sweeper). -/
def ptrace (p : PlainCache K V) : List (COp K V) → List (Obs V)
  | [] => []
  | .get _ k :: rest => .got (pGet p k).1 :: ptrace (pGet p k).2 rest
  | .set _ k v :: rest => .done :: ptrace (pSet p k v) rest
  | .len :: rest => .length (pLen p) :: ptrace p rest
  | .sweep _ :: rest => .done :: ptrace p rest

/-- All entries are within their TTL at time `now`. -/
def fresh (c : Cache K V) (now : Int) : Prop :=
  ∀ kv ∈ c.keyMap, now - kv.2.createdAt ≤ c.ttl

/-- A run in which no entry's age ever exceeds the TTL at the moment of any
operation and no sweeper pass occurs. -/
def goodRun (c : Cache K V) : List (COp K V) → Prop
  | [] => True
  | op :: rest =>
    (match op with
     | .get now _ => fresh c now
     | .set now _ _ => fresh c now
     | .len => True
     | .sweep _ => False) ∧ goodRun (applyOp c op) rest

/-- Entry-erasure used to compare the two implementations: forget timestamps
(the plain cache leaves `createdAt` at the Go zero value). -/
def eEntry (e : EntryV V) : EntryV V := { e with createdAt := 0 }

/-- Key-table erasure. -/
def eraseT (km : List (K × EntryV V)) : List (K × EntryV V) :=
  km.map (fun kv => (kv.1, eEntry kv.2))

/-- Simulation relation between the TTL cache and the plain cache: identical
LFU state up to timestamps, counters and sweeper bookkeeping. -/
def simR (c : Cache K V) (p : PlainCache K V) : Prop :=
  p.capacity = c.capacity ∧ p.size = c.size ∧ p.minFreq = c.minFreq ∧
    p.freqMap = c.freqMap ∧ p.keyMap = eraseT c.keyMap

/-- Run a sequence of `Set` operations (time, key, value). -/
def runSets (c : Cache K V) : List (Int × K × V) → Cache K V
  | [] => c
  | (now, k, v) :: rest => runSets (Set c now k v) rest

/-- Scenario A instrumented prefix: capacity 2, `Set(a,1)`, `Set(b,2)`,
`Get(a)`, with keys `a`,`b`,`c` as `0`,`1`,`2` and a registered callback. -/
def scenA : IState Nat Nat :=
  iApply (iApply (iApply ⟨New 2 1000 1 true, [], 0⟩ (.set 0 0 1)) (.set 0 1 2)) (.get 0 0)

/-- A capacity-2, ttl-5 cache holding key `0 ↦ 42` inserted at time 0. -/
def c3cache : Cache Nat Nat := Set (New 2 5 1 false) 0 0 42

/-- A capacity-2, ttl-10 cache (callback registered) holding `0 ↦ 5`
inserted at time 0. -/
def c4cache : Cache Nat Nat := Set (New 2 10 1 true) 0 0 5

/-- A capacity-2, ttl-100 cache (callback registered) holding `0 ↦ 7`. -/
def c6cache : Cache Nat Nat := Set (New 2 100 1 true) 0 0 7

/-- A full capacity-2 cache holding `0 ↦ 1` and `1 ↦ 2`. -/
def c9cache : Cache Nat Nat := Set (Set (New 2 100 1 true) 0 0 1) 0 1 2

/-- A ttl-10 cache with `0 ↦ 1` created at time 0 and `1 ↦ 2` at time 8;
at time 11 only the first is past its TTL. -/
def c8cache : Cache Nat Nat := Set (Set (New 3 10 1 true) 0 0 1) 8 1 2

/-! ## Association-list and bucket lemmas -/

section AssocLemmas

variable {α β : Type} [DecidableEq α]

@[simp]
theorem alookup_nil (a : α) : alookup ([] : List (α × β)) a = none := rfl

theorem alookup_cons (hd : α × β) (m : List (α × β)) (a : α) :
    alookup (hd :: m) a = if a = hd.1 then some hd.2 else alookup m a := by
  cases hd; rfl

theorem aset_cons (hd : α × β) (m : List (α × β)) (a : α) (b : β) :
    aset (hd :: m) a b = if a = hd.1 then (a, b) :: m else hd :: aset m a b := by
  cases hd; rfl

theorem adel_cons (hd : α × β) (m : List (α × β)) (a : α) :
    adel (hd :: m) a = if a = hd.1 then m else hd :: adel m a := by
  cases hd; rfl

@[simp]
theorem alookup_aset_self (m : List (α × β)) (a : α) (b : β) :
    alookup (aset m a b) a = some b := by
  induction m with
  | nil => simp [aset, alookup]
  | cons hd tl ih =>
      by_cases h : a = hd.1
      · simp [aset_cons, h, alookup_cons]
      · simp [aset_cons, h, alookup_cons, ih]

theorem alookup_aset_ne (m : List (α × β)) {a a' : α} (b : β) (h : a' ≠ a) :
    alookup (aset m a b) a' = alookup m a' := by
  induction m with
  | nil => simp [aset, alookup_cons, h]
  | cons hd tl ih =>
      by_cases hh : a = hd.1
      · simp [aset_cons, hh, alookup_cons, h, hh ▸ h]
      · simp only [aset_cons, if_neg hh, alookup_cons, ih]

theorem alookup_adel_ne (m : List (α × β)) {a a' : α} (h : a' ≠ a) :
    alookup (adel m a) a' = alookup m a' := by
  induction m with
  | nil => simp [adel]
  | cons hd tl ih =>
      by_cases hh : a = hd.1
      · simp [adel_cons, hh, alookup_cons, hh ▸ h]
      · simp only [adel_cons, if_neg hh, alookup_cons, ih]

theorem alookup_none_iff (m : List (α × β)) (a : α) :
    alookup m a = none ↔ a ∉ m.map Prod.fst := by
  induction m with
  | nil => simp
  | cons hd tl ih =>
      by_cases hh : a = hd.1
      · simp [alookup_cons, hh]
      · simp [alookup_cons, hh, ih]

theorem alookup_isSome_iff (m : List (α × β)) (a : α) :
    (alookup m a).isSome ↔ a ∈ m.map Prod.fst := by
  rcases h : alookup m a with _ | b
  · simpa using (alookup_none_iff m a).1 h
  · simp only [Option.isSome_some, true_iff]
    by_contra hmem
    rw [← alookup_none_iff] at hmem
    rw [h] at hmem; cases hmem

theorem alookup_adel_self (m : List (α × β)) (a : α)
    (h : (m.map Prod.fst).Nodup) : alookup (adel m a) a = none := by
  induction m with
  | nil => simp [adel]
  | cons hd tl ih =>
      simp only [List.map_cons, List.nodup_cons] at h
      by_cases hh : a = hd.1
      · rw [adel_cons, if_pos hh, alookup_none_iff, hh]
        exact h.1
      · rw [adel_cons, if_neg hh, alookup_cons, if_neg hh]
        exact ih h.2

theorem mem_of_alookup {m : List (α × β)} {a : α} {b : β}
    (h : alookup m a = some b) : (a, b) ∈ m := by
  induction m with
  | nil => cases h
  | cons hd tl ih =>
      by_cases hh : a = hd.1
      · rw [alookup_cons, if_pos hh, Option.some.injEq] at h
        have hpair : (a, b) = hd := Prod.ext hh h.symm
        rw [hpair]
        exact List.mem_cons_self _ _
      · rw [alookup_cons, if_neg hh] at h
        exact List.mem_cons_of_mem _ (ih h)

theorem alookup_of_mem {m : List (α × β)} {a : α} {b : β}
    (hnd : (m.map Prod.fst).Nodup) (h : (a, b) ∈ m) : alookup m a = some b := by
  induction m with
  | nil => cases h
  | cons hd tl ih =>
      simp only [List.map_cons, List.nodup_cons] at hnd
      rcases List.mem_cons.1 h with h1 | h1
      · rw [← h1, alookup_cons]
        simp
      · have hne : a ≠ hd.1 := fun heq =>
          hnd.1 (heq ▸ List.mem_map.2 ⟨(a, b), h1, rfl⟩)
        rw [alookup_cons, if_neg hne]
        exact ih hnd.2 h1

theorem mem_keys_of_alookup {m : List (α × β)} {a : α} {b : β}
    (h : alookup m a = some b) : a ∈ m.map Prod.fst :=
  List.mem_map.2 ⟨(a, b), mem_of_alookup h, rfl⟩

theorem aset_keys_of_mem {m : List (α × β)} {a : α} (b : β)
    (h : a ∈ m.map Prod.fst) : (aset m a b).map Prod.fst = m.map Prod.fst := by
  induction m with
  | nil => cases h
  | cons hd tl ih =>
      by_cases hh : a = hd.1
      · simp [aset_cons, hh]
      · simp only [List.map_cons, List.mem_cons] at h
        rcases h with h | h
        · exact absurd h hh
        · simp [aset_cons, hh, ih h]

theorem aset_keys_of_not_mem {m : List (α × β)} {a : α} (b : β)
    (h : a ∉ m.map Prod.fst) : (aset m a b).map Prod.fst = m.map Prod.fst ++ [a] := by
  induction m with
  | nil => simp [aset]
  | cons hd tl ih =>
      simp only [List.map_cons, List.mem_cons] at h
      push_neg at h
      simp [aset_cons, h.1, ih h.2]

theorem aset_keys_nodup {m : List (α × β)} {a : α} (b : β)
    (h : (m.map Prod.fst).Nodup) : ((aset m a b).map Prod.fst).Nodup := by
  by_cases hm : a ∈ m.map Prod.fst
  · rw [aset_keys_of_mem b hm]; exact h
  · rw [aset_keys_of_not_mem b hm]
    refine List.Nodup.append h (List.nodup_singleton _) ?_
    intro x hx hx2
    simp only [List.mem_singleton] at hx2
    subst hx2
    exact hm hx

theorem adel_keys_sublist (m : List (α × β)) (a : α) :
    List.Sublist ((adel m a).map Prod.fst) (m.map Prod.fst) := by
  induction m with
  | nil => simp [adel]
  | cons hd tl ih =>
      by_cases hh : a = hd.1
      · rw [adel_cons, if_pos hh, List.map_cons]
        exact List.sublist_cons_self _ _
      · rw [adel_cons, if_neg hh, List.map_cons, List.map_cons]
        exact ih.cons₂ _

theorem adel_keys_nodup {m : List (α × β)} (a : α)
    (h : (m.map Prod.fst).Nodup) : ((adel m a).map Prod.fst).Nodup :=
  h.sublist (adel_keys_sublist m a)

theorem adel_of_none {m : List (α × β)} {a : α} (h : alookup m a = none) :
    adel m a = m := by
  induction m with
  | nil => rfl
  | cons hd tl ih =>
      by_cases hh : a = hd.1
      · rw [alookup_cons, if_pos hh] at h; cases h
      · rw [alookup_cons, if_neg hh] at h
        rw [adel_cons, if_neg hh, ih h]

theorem length_aset_some {m : List (α × β)} {a : α} {b0 : β} (b : β)
    (h : alookup m a = some b0) : (aset m a b).length = m.length := by
  induction m with
  | nil => cases h
  | cons hd tl ih =>
      by_cases hh : a = hd.1
      · simp [aset_cons, hh]
      · rw [alookup_cons, if_neg hh] at h
        simp [aset_cons, hh, ih h]

theorem length_aset_none {m : List (α × β)} {a : α} (b : β)
    (h : alookup m a = none) : (aset m a b).length = m.length + 1 := by
  induction m with
  | nil => simp [aset]
  | cons hd tl ih =>
      by_cases hh : a = hd.1
      · rw [alookup_cons, if_pos hh] at h; cases h
      · rw [alookup_cons, if_neg hh] at h
        simp [aset_cons, hh, ih h]

theorem length_adel_some {m : List (α × β)} {a : α} {b0 : β}
    (h : alookup m a = some b0) : (adel m a).length + 1 = m.length := by
  induction m with
  | nil => cases h
  | cons hd tl ih =>
      by_cases hh : a = hd.1
      · simp [adel_cons, hh]
      · rw [alookup_cons, if_neg hh] at h
        simp [adel_cons, hh, ← ih h]

theorem mem_adel {m : List (α × β)} {a : α} {kv : α × β}
    (h : kv ∈ adel m a) : kv ∈ m := by
  induction m with
  | nil => cases h
  | cons hd tl ih =>
      by_cases hh : a = hd.1
      · rw [adel_cons, if_pos hh] at h
        exact List.mem_cons_of_mem _ h
      · rw [adel_cons, if_neg hh, List.mem_cons] at h
        rcases h with h | h
        · exact h ▸ List.mem_cons_self _ _
        · exact List.mem_cons_of_mem _ (ih h)

theorem mem_aset {m : List (α × β)} {a : α} {b : β} {kv : α × β}
    (h : kv ∈ aset m a b) : kv = (a, b) ∨ kv ∈ m := by
  induction m with
  | nil => simpa [aset] using h
  | cons hd tl ih =>
      by_cases hh : a = hd.1
      · rw [aset_cons, if_pos hh, List.mem_cons] at h
        rcases h with h | h
        · exact Or.inl h
        · exact Or.inr (List.mem_cons_of_mem _ h)
      · rw [aset_cons, if_neg hh, List.mem_cons] at h
        rcases h with h | h
        · exact Or.inr (h ▸ List.mem_cons_self _ _)
        · rcases ih h with h1 | h1
          · exact Or.inl h1
          · exact Or.inr (List.mem_cons_of_mem _ h1)

end AssocLemmas

section BeraseLemmas

variable {α : Type} [DecidableEq α]

theorem berase_cons (hd : α) (l : List α) (a : α) :
    berase (hd :: l) a = if a = hd then l else hd :: berase l a := rfl

theorem berase_sublist (l : List α) (a : α) : List.Sublist (berase l a) l := by
  induction l with
  | nil => simp [berase]
  | cons hd tl ih =>
      by_cases hh : a = hd
      · rw [berase_cons, if_pos hh]
        exact List.sublist_cons_self _ _
      · rw [berase_cons, if_neg hh]
        exact ih.cons₂ _

theorem mem_berase {l : List α} {a x : α} (h : x ∈ berase l a) : x ∈ l :=
  (berase_sublist l a).mem h

theorem mem_berase_of {l : List α} {a x : α} (h : x ∈ l) (hx : x ≠ a) :
    x ∈ berase l a := by
  induction l with
  | nil => cases h
  | cons hd tl ih =>
      by_cases hh : a = hd
      · rw [berase_cons, if_pos hh]
        rcases List.mem_cons.1 h with h1 | h1
        · exact absurd (h1.trans hh.symm) hx
        · exact h1
      · rw [berase_cons, if_neg hh, List.mem_cons]
        rcases List.mem_cons.1 h with h1 | h1
        · exact Or.inl h1
        · exact Or.inr (ih h1)

theorem not_mem_berase {l : List α} (hnd : l.Nodup) (a : α) :
    a ∉ berase l a := by
  induction l with
  | nil => simp [berase]
  | cons hd tl ih =>
      rcases List.nodup_cons.1 hnd with ⟨hhd, htl⟩
      by_cases hh : a = hd
      · rw [berase_cons, if_pos hh, hh]
        exact hhd
      · rw [berase_cons, if_neg hh, List.mem_cons]
        push_neg
        exact ⟨fun h => hh h, ih htl⟩

theorem length_berase {l : List α} {a : α} (h : a ∈ l) :
    (berase l a).length + 1 = l.length := by
  induction l with
  | nil => cases h
  | cons hd tl ih =>
      by_cases hh : a = hd
      · simp [berase_cons, hh]
      · rcases List.mem_cons.1 h with h1 | h1
        · exact absurd h1 hh
        · simp [berase_cons, hh, ← ih h1]

theorem berase_eq_nil {l : List α} {a : α} (hmem : a ∈ l)
    (h : berase l a = []) : l = [a] := by
  have hlen := length_berase hmem
  rw [h] at hlen
  simp only [List.length_nil, Nat.zero_add] at hlen
  rcases l with _ | ⟨hd, tl⟩
  · cases hmem
  · have : tl.length = 0 := by
      simpa using hlen.symm
    have htl : tl = [] := List.length_eq_zero.1 this
    subst htl
    rcases List.mem_cons.1 hmem with h1 | h1
    · rw [h1]
    · cases h1

theorem berase_of_not_mem {l : List α} {a : α} (h : a ∉ l) : berase l a = l := by
  induction l with
  | nil => rfl
  | cons hd tl ih =>
      simp only [List.mem_cons] at h
      push_neg at h
      rw [berase_cons, if_neg h.1, ih h.2]

end BeraseLemmas

section CombinedLookup

variable {α β : Type} [DecidableEq α]

theorem alookup_aset_eq (m : List (α × β)) (a : α) (b : β) (a' : α) :
    alookup (aset m a b) a' = if a' = a then some b else alookup m a' := by
  by_cases h : a' = a
  · rw [if_pos h, h, alookup_aset_self]
  · rw [if_neg h, alookup_aset_ne m b h]

theorem alookup_adel_eq (m : List (α × β)) (a : α) (a' : α)
    (hnd : (m.map Prod.fst).Nodup) :
    alookup (adel m a) a' = if a' = a then none else alookup m a' := by
  by_cases h : a' = a
  · rw [if_pos h, h, alookup_adel_self m a hnd]
  · rw [if_neg h, alookup_adel_ne m h]

end CombinedLookup

/-! ## Characterization of the cache operations -/

section OpChar

@[simp]
theorem increment_capacity (c : Cache K V) (key : K) :
    (increment c key).capacity = c.capacity := by
  rcases h : alookup c.keyMap key with _ | e <;> simp [increment, h]

@[simp]
theorem increment_size (c : Cache K V) (key : K) :
    (increment c key).size = c.size := by
  rcases h : alookup c.keyMap key with _ | e <;> simp [increment, h]

@[simp]
theorem increment_ttl (c : Cache K V) (key : K) :
    (increment c key).ttl = c.ttl := by
  rcases h : alookup c.keyMap key with _ | e <;> simp [increment, h]

@[simp]
theorem increment_hits (c : Cache K V) (key : K) :
    (increment c key).hits = c.hits := by
  rcases h : alookup c.keyMap key with _ | e <;> simp [increment, h]

@[simp]
theorem increment_misses (c : Cache K V) (key : K) :
    (increment c key).misses = c.misses := by
  rcases h : alookup c.keyMap key with _ | e <;> simp [increment, h]

@[simp]
theorem increment_evictions (c : Cache K V) (key : K) :
    (increment c key).evictions = c.evictions := by
  rcases h : alookup c.keyMap key with _ | e <;> simp [increment, h]

@[simp]
theorem increment_evLog (c : Cache K V) (key : K) :
    (increment c key).evLog = c.evLog := by
  rcases h : alookup c.keyMap key with _ | e <;> simp [increment, h]

@[simp]
theorem increment_hasCallback (c : Cache K V) (key : K) :
    (increment c key).hasCallback = c.hasCallback := by
  rcases h : alookup c.keyMap key with _ | e <;> simp [increment, h]

@[simp]
theorem increment_stopClosed (c : Cache K V) (key : K) :
    (increment c key).stopClosed = c.stopClosed := by
  rcases h : alookup c.keyMap key with _ | e <;> simp [increment, h]

@[simp]
theorem increment_cleanupInterval (c : Cache K V) (key : K) :
    (increment c key).cleanupInterval = c.cleanupInterval := by
  rcases h : alookup c.keyMap key with _ | e <;> simp [increment, h]

theorem increment_of_none {c : Cache K V} {key : K}
    (h : alookup c.keyMap key = none) : increment c key = c := by
  simp [increment, h]

theorem increment_keyMap {c : Cache K V} {key : K} {e : EntryV V}
    (hk : alookup c.keyMap key = some e) :
    (increment c key).keyMap = aset c.keyMap key { e with frequency := e.frequency + 1 } := by
  simp [increment, hk]

theorem increment_minFreq {c : Cache K V} {key : K} {e : EntryV V}
    (hk : alookup c.keyMap key = some e) :
    (increment c key).minFreq =
      if berase (bucketOf c e.frequency) key = [] ∧ c.minFreq = e.frequency
      then c.minFreq + 1 else c.minFreq := by
  simp [increment, hk]

theorem increment_freqMap_lookup {c : Cache K V} {key : K} {e : EntryV V}
    (hk : alookup c.keyMap key = some e)
    (hnd : (c.freqMap.map Prod.fst).Nodup) (f : Int) :
    alookup (increment c key).freqMap f =
      if f = e.frequency + 1 then some (key :: bucketOf c (e.frequency + 1))
      else if f = e.frequency then
        (if berase (bucketOf c e.frequency) key = [] then none
         else some (berase (bucketOf c e.frequency) key))
      else alookup c.freqMap f := by
  have hne : e.frequency + 1 ≠ e.frequency := by omega
  have hnb :
      alookup (if berase (bucketOf c e.frequency) key = [] then adel c.freqMap e.frequency
               else aset c.freqMap e.frequency (berase (bucketOf c e.frequency) key))
        (e.frequency + 1) = alookup c.freqMap (e.frequency + 1) := by
    split_ifs with h1
    · exact alookup_adel_ne _ hne
    · exact alookup_aset_ne _ _ hne
  simp only [increment, hk]
  by_cases hf1 : f = e.frequency + 1
  · subst hf1
    rw [if_pos rfl, alookup_aset_self]
    rw [hnb]
    rfl
  · rw [if_neg hf1, alookup_aset_ne _ _ hf1]
    by_cases hf2 : f = e.frequency
    · subst hf2
      rw [if_pos rfl]
      split_ifs with h1
      · exact alookup_adel_self _ _ hnd
      · exact alookup_aset_self _ _ _
    · rw [if_neg hf2]
      split_ifs with h1
      · exact alookup_adel_ne _ hf2
      · exact alookup_aset_ne _ _ hf2

theorem increment_fm_nodup {c : Cache K V} {key : K}
    (hnd : (c.freqMap.map Prod.fst).Nodup) :
    ((increment c key).freqMap.map Prod.fst).Nodup := by
  rcases hk : alookup c.keyMap key with _ | e
  · rw [increment_of_none hk]; exact hnd
  · simp only [increment, hk]
    split_ifs with h1
    · exact aset_keys_nodup _ (adel_keys_nodup _ hnd)
    · exact aset_keys_nodup _ (aset_keys_nodup _ hnd)

theorem deleteKey_of_none {c : Cache K V} {key : K}
    (h : alookup c.keyMap key = none) : deleteKey c key = c := by
  simp [deleteKey, h]

theorem deleteKey_keyMap {c : Cache K V} {key : K} {e : EntryV V}
    (hk : alookup c.keyMap key = some e) :
    (deleteKey c key).keyMap = adel c.keyMap key := by
  simp [deleteKey, hk]

theorem deleteKey_minFreq {c : Cache K V} {key : K} {e : EntryV V}
    (hk : alookup c.keyMap key = some e) :
    (deleteKey c key).minFreq =
      if berase (bucketOf c e.frequency) key = [] ∧ c.minFreq = e.frequency
      then c.minFreq + 1 else c.minFreq := by
  simp [deleteKey, hk]

theorem deleteKey_freqMap_lookup {c : Cache K V} {key : K} {e : EntryV V}
    (hk : alookup c.keyMap key = some e)
    (hnd : (c.freqMap.map Prod.fst).Nodup) (f : Int) :
    alookup (deleteKey c key).freqMap f =
      if f = e.frequency then
        (if berase (bucketOf c e.frequency) key = [] then none
         else some (berase (bucketOf c e.frequency) key))
      else alookup c.freqMap f := by
  simp only [deleteKey, hk]
  by_cases hf : f = e.frequency
  · subst hf
    rw [if_pos rfl]
    split_ifs with h1
    · exact alookup_adel_self _ _ hnd
    · exact alookup_aset_self _ _ _
  · rw [if_neg hf]
    split_ifs with h1
    · exact alookup_adel_ne _ hf
    · exact alookup_aset_ne _ _ hf

theorem deleteKey_fm_nodup {c : Cache K V} {key : K}
    (hnd : (c.freqMap.map Prod.fst).Nodup) :
    ((deleteKey c key).freqMap.map Prod.fst).Nodup := by
  rcases hk : alookup c.keyMap key with _ | e
  · rw [deleteKey_of_none hk]; exact hnd
  · simp only [deleteKey, hk]
    split_ifs with h1
    · exact adel_keys_nodup _ hnd
    · exact aset_keys_nodup _ hnd

theorem deleteKey_size {c : Cache K V} {key : K} {e : EntryV V}
    (hk : alookup c.keyMap key = some e) :
    (deleteKey c key).size = c.size - 1 := by
  simp [deleteKey, hk]

theorem deleteKey_evictions {c : Cache K V} {key : K} {e : EntryV V}
    (hk : alookup c.keyMap key = some e) :
    (deleteKey c key).evictions = c.evictions + 1 := by
  simp [deleteKey, hk]

theorem deleteKey_evLog {c : Cache K V} {key : K} {e : EntryV V}
    (hk : alookup c.keyMap key = some e) :
    (deleteKey c key).evLog =
      if c.hasCallback then c.evLog ++ [(key, e.value)] else c.evLog := by
  simp [deleteKey, hk]

@[simp]
theorem deleteKey_capacity (c : Cache K V) (key : K) :
    (deleteKey c key).capacity = c.capacity := by
  rcases h : alookup c.keyMap key with _ | e <;> simp [deleteKey, h]

@[simp]
theorem deleteKey_ttl (c : Cache K V) (key : K) :
    (deleteKey c key).ttl = c.ttl := by
  rcases h : alookup c.keyMap key with _ | e <;> simp [deleteKey, h]

@[simp]
theorem deleteKey_hits (c : Cache K V) (key : K) :
    (deleteKey c key).hits = c.hits := by
  rcases h : alookup c.keyMap key with _ | e <;> simp [deleteKey, h]

@[simp]
theorem deleteKey_misses (c : Cache K V) (key : K) :
    (deleteKey c key).misses = c.misses := by
  rcases h : alookup c.keyMap key with _ | e <;> simp [deleteKey, h]

@[simp]
theorem deleteKey_hasCallback (c : Cache K V) (key : K) :
    (deleteKey c key).hasCallback = c.hasCallback := by
  rcases h : alookup c.keyMap key with _ | e <;> simp [deleteKey, h]

@[simp]
theorem deleteKey_stopClosed (c : Cache K V) (key : K) :
    (deleteKey c key).stopClosed = c.stopClosed := by
  rcases h : alookup c.keyMap key with _ | e <;> simp [deleteKey, h]

@[simp]
theorem deleteKey_cleanupInterval (c : Cache K V) (key : K) :
    (deleteKey c key).cleanupInterval = c.cleanupInterval := by
  rcases h : alookup c.keyMap key with _ | e <;> simp [deleteKey, h]

/-! `evict` characterizations.  The interesting case takes the bucket at
`minFreq`, its last element and that victim's entry. -/

theorem evict_of_no_bucket {c : Cache K V}
    (h : alookup c.freqMap c.minFreq = none) : evict c = c := by
  simp [evict, h]

theorem evict_of_empty_bucket {c : Cache K V} {B : List K}
    (h : alookup c.freqMap c.minFreq = some B) (hB : B.getLast? = none) :
    evict c = c := by
  simp [evict, h, hB]

theorem evict_of_no_entry {c : Cache K V} {B : List K} {vk : K}
    (h : alookup c.freqMap c.minFreq = some B) (hB : B.getLast? = some vk)
    (he : alookup c.keyMap vk = none) : evict c = c := by
  simp [evict, h, hB, he]

theorem evict_keyMap {c : Cache K V} {B : List K} {vk : K} {e : EntryV V}
    (h : alookup c.freqMap c.minFreq = some B) (hB : B.getLast? = some vk)
    (he : alookup c.keyMap vk = some e) :
    (evict c).keyMap = adel c.keyMap vk := by
  simp [evict, h, hB, he]

theorem evict_minFreq (c : Cache K V) : (evict c).minFreq = c.minFreq := by
  rcases h : alookup c.freqMap c.minFreq with _ | B
  · simp [evict, h]
  · rcases hB : B.getLast? with _ | vk
    · simp [evict, h, hB]
    · rcases he : alookup c.keyMap vk with _ | e <;> simp [evict, h, hB, he]

theorem evict_size {c : Cache K V} {B : List K} {vk : K} {e : EntryV V}
    (h : alookup c.freqMap c.minFreq = some B) (hB : B.getLast? = some vk)
    (he : alookup c.keyMap vk = some e) :
    (evict c).size = c.size - 1 := by
  simp [evict, h, hB, he]

theorem evict_evictions {c : Cache K V} {B : List K} {vk : K} {e : EntryV V}
    (h : alookup c.freqMap c.minFreq = some B) (hB : B.getLast? = some vk)
    (he : alookup c.keyMap vk = some e) :
    (evict c).evictions = c.evictions + 1 := by
  simp [evict, h, hB, he]

theorem evict_evLog {c : Cache K V} {B : List K} {vk : K} {e : EntryV V}
    (h : alookup c.freqMap c.minFreq = some B) (hB : B.getLast? = some vk)
    (he : alookup c.keyMap vk = some e) :
    (evict c).evLog =
      if c.hasCallback then c.evLog ++ [(vk, e.value)] else c.evLog := by
  simp [evict, h, hB, he]

theorem evict_freqMap_lookup {c : Cache K V} {B : List K} {vk : K} {e : EntryV V}
    (h : alookup c.freqMap c.minFreq = some B) (hB : B.getLast? = some vk)
    (he : alookup c.keyMap vk = some e)
    (hnd : (c.freqMap.map Prod.fst).Nodup) (f : Int) :
    alookup (evict c).freqMap f =
      if f = c.minFreq then
        (if B.dropLast = [] then none else some B.dropLast)
      else alookup c.freqMap f := by
  simp only [evict, h, hB, he]
  by_cases hf : f = c.minFreq
  · subst hf
    rw [if_pos rfl]
    split_ifs with h1
    · exact alookup_adel_self _ _ hnd
    · exact alookup_aset_self _ _ _
  · rw [if_neg hf]
    split_ifs with h1
    · exact alookup_adel_ne _ hf
    · exact alookup_aset_ne _ _ hf

theorem evict_fm_nodup {c : Cache K V}
    (hnd : (c.freqMap.map Prod.fst).Nodup) :
    ((evict c).freqMap.map Prod.fst).Nodup := by
  rcases h : alookup c.freqMap c.minFreq with _ | B
  · rw [evict_of_no_bucket h]; exact hnd
  · rcases hB : B.getLast? with _ | vk
    · rw [evict_of_empty_bucket h hB]; exact hnd
    · rcases he : alookup c.keyMap vk with _ | e
      · rw [evict_of_no_entry h hB he]; exact hnd
      · simp only [evict, h, hB, he]
        split_ifs with h1
        · exact adel_keys_nodup _ hnd
        · exact aset_keys_nodup _ hnd

@[simp]
theorem evict_capacity (c : Cache K V) : (evict c).capacity = c.capacity := by
  rcases h : alookup c.freqMap c.minFreq with _ | B
  · simp [evict, h]
  · rcases hB : B.getLast? with _ | vk
    · simp [evict, h, hB]
    · rcases he : alookup c.keyMap vk with _ | e <;> simp [evict, h, hB, he]

@[simp]
theorem evict_ttl (c : Cache K V) : (evict c).ttl = c.ttl := by
  rcases h : alookup c.freqMap c.minFreq with _ | B
  · simp [evict, h]
  · rcases hB : B.getLast? with _ | vk
    · simp [evict, h, hB]
    · rcases he : alookup c.keyMap vk with _ | e <;> simp [evict, h, hB, he]

@[simp]
theorem evict_hits (c : Cache K V) : (evict c).hits = c.hits := by
  rcases h : alookup c.freqMap c.minFreq with _ | B
  · simp [evict, h]
  · rcases hB : B.getLast? with _ | vk
    · simp [evict, h, hB]
    · rcases he : alookup c.keyMap vk with _ | e <;> simp [evict, h, hB, he]

@[simp]
theorem evict_misses (c : Cache K V) : (evict c).misses = c.misses := by
  rcases h : alookup c.freqMap c.minFreq with _ | B
  · simp [evict, h]
  · rcases hB : B.getLast? with _ | vk
    · simp [evict, h, hB]
    · rcases he : alookup c.keyMap vk with _ | e <;> simp [evict, h, hB, he]

@[simp]
theorem evict_hasCallback (c : Cache K V) : (evict c).hasCallback = c.hasCallback := by
  rcases h : alookup c.freqMap c.minFreq with _ | B
  · simp [evict, h]
  · rcases hB : B.getLast? with _ | vk
    · simp [evict, h, hB]
    · rcases he : alookup c.keyMap vk with _ | e <;> simp [evict, h, hB, he]

@[simp]
theorem evict_stopClosed (c : Cache K V) : (evict c).stopClosed = c.stopClosed := by
  rcases h : alookup c.freqMap c.minFreq with _ | B
  · simp [evict, h]
  · rcases hB : B.getLast? with _ | vk
    · simp [evict, h, hB]
    · rcases he : alookup c.keyMap vk with _ | e <;> simp [evict, h, hB, he]

@[simp]
theorem evict_cleanupInterval (c : Cache K V) :
    (evict c).cleanupInterval = c.cleanupInterval := by
  rcases h : alookup c.freqMap c.minFreq with _ | B
  · simp [evict, h]
  · rcases hB : B.getLast? with _ | vk
    · simp [evict, h, hB]
    · rcases he : alookup c.keyMap vk with _ | e <;> simp [evict, h, hB, he]

/-! `Get` and `Set` branch equations. -/

theorem Get_of_none {c : Cache K V} {key : K} (now : Int)
    (h : alookup c.keyMap key = none) :
    Get c now key = (none, { c with misses := c.misses + 1 }) := by
  simp [Get, h]

theorem Get_of_expired {c : Cache K V} {key : K} {e : EntryV V} {now : Int}
    (hk : alookup c.keyMap key = some e) (hx : now - e.createdAt > c.ttl) :
    Get c now key =
      (none, { deleteKey c key with misses := (deleteKey c key).misses + 1 }) := by
  simp [Get, hk, hx]

theorem Get_of_hit {c : Cache K V} {key : K} {e : EntryV V} {now : Int}
    (hk : alookup c.keyMap key = some e) (hx : ¬ now - e.createdAt > c.ttl) :
    Get c now key =
      (some e.value, { increment c key with hits := (increment c key).hits + 1 }) := by
  simp [Get, hk, hx]

theorem Set_of_zero {c : Cache K V} (now : Int) (key : K) (v : V)
    (h : c.capacity = 0) : Set c now key v = c := by
  simp [Set, h]

theorem Set_of_existing {c : Cache K V} {key : K} {e : EntryV V} (now : Int) (v : V)
    (hcap : c.capacity ≠ 0) (hk : alookup c.keyMap key = some e) :
    Set c now key v =
      increment
        { c with keyMap := aset c.keyMap key { e with value := v, createdAt := now } }
        key := by
  simp [Set, hcap, hk]

theorem Set_of_new {c : Cache K V} {key : K} (now : Int) (v : V)
    (hcap : c.capacity ≠ 0) (hk : alookup c.keyMap key = none) :
    Set c now key v =
      { (if c.size ≥ c.capacity then evict c else c) with
          keyMap := aset (if c.size ≥ c.capacity then evict c else c).keyMap key
            { value := v, frequency := 1, createdAt := now },
          freqMap := aset (if c.size ≥ c.capacity then evict c else c).freqMap 1
            (key :: bucketOf (if c.size ≥ c.capacity then evict c else c) 1),
          minFreq := 1,
          size := (if c.size ≥ c.capacity then evict c else c).size + 1 } := by
  simp [Set, hcap, hk]

end OpChar

/-! ## Well-formedness preservation -/

section WFPres

theorem bucketOf_nodup {c : Cache K V} (w : WF c) (f : Int) :
    (bucketOf c f).Nodup := by
  rcases h : alookup c.freqMap f with _ | B
  · simp [bucketOf, h]
  · rw [bucketOf, h]
    exact w.bucket_nodup f B h

theorem alookup_bucketOf_of_mem {c : Cache K V} {f : Int} {k : K}
    (h : k ∈ bucketOf c f) : alookup c.freqMap f = some (bucketOf c f) := by
  rcases hb : alookup c.freqMap f with _ | B
  · rw [bucketOf, hb] at h
    cases h
  · rw [bucketOf, hb]
    rfl

theorem bucket_present {c : Cache K V} (w : WF c) {k : K} {e : EntryV V}
    (hk : alookup c.keyMap k = some e) :
    alookup c.freqMap e.frequency = some (bucketOf c e.frequency) :=
  alookup_bucketOf_of_mem (w.in_bucket _ _ hk)

theorem freq_of_mem_bucket {c : Cache K V} (w : WF c) {f : Int} {B : List K}
    {k : K} {e : EntryV V} (hb : alookup c.freqMap f = some B) (hkB : k ∈ B)
    (hk : alookup c.keyMap k = some e) : e.frequency = f := by
  obtain ⟨e', he', hf⟩ := w.bucket_freq f B hb k hkB
  rw [hk] at he'
  injection he' with he'
  rw [← he'] at hf
  exact hf

theorem WF_increment {c : Cache K V} (w : WF c) (key : K) :
    WF (increment c key) := by
  rcases hk : alookup c.keyMap key with _ | e
  · rw [increment_of_none hk]
    exact w
  · have hbp := bucket_present w hk
    have hBnd : (bucketOf c e.frequency).Nodup := w.bucket_nodup _ _ hbp
    have hkin : key ∈ bucketOf c e.frequency := w.in_bucket _ _ hk
    have hkm := increment_keyMap hk
    have hfm := increment_freqMap_lookup hk w.fm_nodup
    have hmf := increment_minFreq hk
    have hknotnew : key ∉ bucketOf c (e.frequency + 1) := by
      intro hmem
      have hfq := freq_of_mem_bucket w (alookup_bucketOf_of_mem hmem) hmem hk
      omega
    refine ⟨?_, ?_, ?_, ?_, ?_, ?_, ?_, ?_, ?_⟩
    · rw [hkm]
      exact aset_keys_nodup _ w.km_nodup
    · exact increment_fm_nodup w.fm_nodup
    · intro f B hB
      rw [hfm f] at hB
      by_cases h1 : f = e.frequency + 1
      · rw [if_pos h1, Option.some.injEq] at hB
        rw [← hB]
        exact List.nodup_cons.2 ⟨hknotnew, bucketOf_nodup w _⟩
      · rw [if_neg h1] at hB
        by_cases h2 : f = e.frequency
        · rw [if_pos h2] at hB
          by_cases h3 : berase (bucketOf c e.frequency) key = []
          · rw [if_pos h3] at hB
            cases hB
          · rw [if_neg h3, Option.some.injEq] at hB
            rw [← hB]
            exact hBnd.sublist (berase_sublist _ _)
        · rw [if_neg h2] at hB
          exact w.bucket_nodup f B hB
    · intro f B hB
      rw [hfm f] at hB
      by_cases h1 : f = e.frequency + 1
      · rw [if_pos h1, Option.some.injEq] at hB
        rw [← hB]
        exact List.cons_ne_nil _ _
      · rw [if_neg h1] at hB
        by_cases h2 : f = e.frequency
        · rw [if_pos h2] at hB
          by_cases h3 : berase (bucketOf c e.frequency) key = []
          · rw [if_pos h3] at hB
            cases hB
          · rw [if_neg h3, Option.some.injEq] at hB
            rw [← hB]
            exact h3
        · rw [if_neg h2] at hB
          exact w.bucket_ne f B hB
    · intro k' e' hk'
      rw [hkm, alookup_aset_eq] at hk'
      by_cases hkey : k' = key
      · rw [if_pos hkey, Option.some.injEq] at hk'
        rw [← hk']
        show k' ∈ bucketOf (increment c key) (e.frequency + 1)
        rw [bucketOf, hfm, if_pos rfl]
        rw [hkey]
        exact List.mem_cons_self _ _
      · rw [if_neg hkey] at hk'
        have horig := w.in_bucket _ _ hk'
        show k' ∈ bucketOf (increment c key) e'.frequency
        rw [bucketOf, hfm]
        by_cases hf1 : e'.frequency = e.frequency + 1
        · rw [if_pos hf1]
          rw [hf1] at horig
          exact List.mem_cons_of_mem _ horig
        · rw [if_neg hf1]
          by_cases hf2 : e'.frequency = e.frequency
          · rw [if_pos hf2]
            rw [hf2] at horig
            by_cases h3 : berase (bucketOf c e.frequency) key = []
            · have hsing := berase_eq_nil hkin h3
              rw [hsing] at horig
              exact absurd (List.mem_singleton.1 horig) hkey
            · rw [if_neg h3]
              exact mem_berase_of horig hkey
          · rw [if_neg hf2]
            exact horig
    · intro f B hB k' hk'B
      rw [hkm]
      rw [hfm f] at hB
      by_cases h1 : f = e.frequency + 1
      · rw [if_pos h1, Option.some.injEq] at hB
        rw [← hB] at hk'B
        rcases List.mem_cons.1 hk'B with hc | hc
        · refine ⟨{ e with frequency := e.frequency + 1 }, ?_, ?_⟩
          · rw [alookup_aset_eq, if_pos hc]
          · rw [h1]
        · have hlk := alookup_bucketOf_of_mem hc
          obtain ⟨e'', he'', hf''⟩ := w.bucket_freq _ _ hlk k' hc
          have hk'ne : k' ≠ key := fun hkk => hknotnew (hkk ▸ hc)
          refine ⟨e'', ?_, ?_⟩
          · rw [alookup_aset_eq, if_neg hk'ne]
            exact he''
          · rw [hf'', h1]
      · rw [if_neg h1] at hB
        by_cases h2 : f = e.frequency
        · rw [if_pos h2] at hB
          by_cases h3 : berase (bucketOf c e.frequency) key = []
          · rw [if_pos h3] at hB
            cases hB
          · rw [if_neg h3, Option.some.injEq] at hB
            rw [← hB] at hk'B
            have hk'ne : k' ≠ key := fun hkk =>
              not_mem_berase hBnd key (hkk ▸ hk'B)
            have hmem : k' ∈ bucketOf c e.frequency := mem_berase hk'B
            obtain ⟨e'', he'', hf''⟩ := w.bucket_freq _ _ hbp k' hmem
            refine ⟨e'', ?_, ?_⟩
            · rw [alookup_aset_eq, if_neg hk'ne]
              exact he''
            · rw [hf'', h2]
        · rw [if_neg h2] at hB
          obtain ⟨e'', he'', hf''⟩ := w.bucket_freq f B hB k' hk'B
          have hk'ne : k' ≠ key := by
            rintro rfl
            rw [hk] at he''
            injection he'' with he''
            rw [← he''] at hf''
            exact h2 hf''.symm
          refine ⟨e'', ?_, ?_⟩
          · rw [alookup_aset_eq, if_neg hk'ne]
            exact he''
          · exact hf''
    · intro k' e' hk'
      rw [hkm, alookup_aset_eq] at hk'
      by_cases hkey : k' = key
      · rw [if_pos hkey, Option.some.injEq] at hk'
        have hp := w.freq_pos _ _ hk
        rw [← hk']
        show (1 : Int) ≤ e.frequency + 1
        omega
      · rw [if_neg hkey] at hk'
        exact w.freq_pos _ _ hk'
    · intro k' e' hk'
      rw [hkm, alookup_aset_eq] at hk'
      have hminle := w.min_le _ _ hk
      by_cases hkey : k' = key
      · rw [if_pos hkey, Option.some.injEq] at hk'
        rw [← hk', hmf]
        show (if berase (bucketOf c e.frequency) key = [] ∧ c.minFreq = e.frequency
              then c.minFreq + 1 else c.minFreq) ≤ e.frequency + 1
        split_ifs with h1
        · omega
        · omega
      · rw [if_neg hkey] at hk'
        have hle := w.min_le _ _ hk'
        rw [hmf]
        split_ifs with h1
        · rcases h1 with ⟨hrem, hmin⟩
          have hsing := berase_eq_nil hkin hrem
          have hne : e'.frequency ≠ e.frequency := by
            intro hfe
            have hin := w.in_bucket _ _ hk'
            rw [hfe, hsing] at hin
            exact hkey (List.mem_singleton.1 hin)
          rw [hmin]
          omega
        · exact hle
    · rw [increment_size, hkm, length_aset_some _ hk]
      exact w.size_eq



theorem WF_deleteKey {c : Cache K V} (w : WF c) (key : K) :
    WF (deleteKey c key) := by
  rcases hk : alookup c.keyMap key with _ | e
  · rw [deleteKey_of_none hk]
    exact w
  · have hbp := bucket_present w hk
    have hBnd : (bucketOf c e.frequency).Nodup := w.bucket_nodup _ _ hbp
    have hkin : key ∈ bucketOf c e.frequency := w.in_bucket _ _ hk
    have hkm := deleteKey_keyMap hk
    have hfm := deleteKey_freqMap_lookup hk w.fm_nodup
    have hmf := deleteKey_minFreq hk
    have hlk : ∀ k', alookup (deleteKey c key).keyMap k' =
        if k' = key then none else alookup c.keyMap k' := by
      intro k'
      rw [hkm, alookup_adel_eq _ _ _ w.km_nodup]
    refine ⟨?_, ?_, ?_, ?_, ?_, ?_, ?_, ?_, ?_⟩
    · rw [hkm]
      exact adel_keys_nodup _ w.km_nodup
    · exact deleteKey_fm_nodup w.fm_nodup
    · intro f B hB
      rw [hfm f] at hB
      by_cases h2 : f = e.frequency
      · rw [if_pos h2] at hB
        by_cases h3 : berase (bucketOf c e.frequency) key = []
        · rw [if_pos h3] at hB
          cases hB
        · rw [if_neg h3, Option.some.injEq] at hB
          rw [← hB]
          exact hBnd.sublist (berase_sublist _ _)
      · rw [if_neg h2] at hB
        exact w.bucket_nodup f B hB
    · intro f B hB
      rw [hfm f] at hB
      by_cases h2 : f = e.frequency
      · rw [if_pos h2] at hB
        by_cases h3 : berase (bucketOf c e.frequency) key = []
        · rw [if_pos h3] at hB
          cases hB
        · rw [if_neg h3, Option.some.injEq] at hB
          rw [← hB]
          exact h3
      · rw [if_neg h2] at hB
        exact w.bucket_ne f B hB
    · intro k' e' hk'
      rw [hlk] at hk'
      by_cases hkey : k' = key
      · rw [if_pos hkey] at hk'
        cases hk'
      · rw [if_neg hkey] at hk'
        have horig := w.in_bucket _ _ hk'
        show k' ∈ bucketOf (deleteKey c key) e'.frequency
        rw [bucketOf, hfm]
        by_cases hf2 : e'.frequency = e.frequency
        · rw [if_pos hf2]
          rw [hf2] at horig
          by_cases h3 : berase (bucketOf c e.frequency) key = []
          · have hsing := berase_eq_nil hkin h3
            rw [hsing] at horig
            exact absurd (List.mem_singleton.1 horig) hkey
          · rw [if_neg h3]
            exact mem_berase_of horig hkey
        · rw [if_neg hf2]
          exact horig
    · intro f B hB k' hk'B
      rw [hfm f] at hB
      by_cases h2 : f = e.frequency
      · rw [if_pos h2] at hB
        by_cases h3 : berase (bucketOf c e.frequency) key = []
        · rw [if_pos h3] at hB
          cases hB
        · rw [if_neg h3, Option.some.injEq] at hB
          rw [← hB] at hk'B
          have hk'ne : k' ≠ key := fun hkk =>
            not_mem_berase hBnd key (hkk ▸ hk'B)
          have hmem : k' ∈ bucketOf c e.frequency := mem_berase hk'B
          obtain ⟨e'', he'', hf''⟩ := w.bucket_freq _ _ hbp k' hmem
          refine ⟨e'', ?_, ?_⟩
          · rw [hlk, if_neg hk'ne]
            exact he''
          · rw [hf'', h2]
      · rw [if_neg h2] at hB
        obtain ⟨e'', he'', hf''⟩ := w.bucket_freq f B hB k' hk'B
        have hk'ne : k' ≠ key := by
          rintro rfl
          rw [hk] at he''
          injection he'' with he''
          rw [← he''] at hf''
          exact h2 hf''.symm
        refine ⟨e'', ?_, ?_⟩
        · rw [hlk, if_neg hk'ne]
          exact he''
        · exact hf''
    · intro k' e' hk'
      rw [hlk] at hk'
      by_cases hkey : k' = key
      · rw [if_pos hkey] at hk'
        cases hk'
      · rw [if_neg hkey] at hk'
        exact w.freq_pos _ _ hk'
    · intro k' e' hk'
      rw [hlk] at hk'
      by_cases hkey : k' = key
      · rw [if_pos hkey] at hk'
        cases hk'
      · rw [if_neg hkey] at hk'
        have hle := w.min_le _ _ hk'
        rw [hmf]
        split_ifs with h1
        · rcases h1 with ⟨hrem, hmin⟩
          have hsing := berase_eq_nil hkin hrem
          have hne : e'.frequency ≠ e.frequency := by
            intro hfe
            have hin := w.in_bucket _ _ hk'
            rw [hfe, hsing] at hin
            exact hkey (List.mem_singleton.1 hin)
          rw [hmin]
          omega
        · exact hle
    · have h1 := length_adel_some hk
      have h2 := w.size_eq
      rw [deleteKey_size hk, hkm]
      omega

theorem WF_evict {c : Cache K V} (w : WF c) : WF (evict c) := by
  rcases h : alookup c.freqMap c.minFreq with _ | B
  · rw [evict_of_no_bucket h]
    exact w
  · rcases hB : B.getLast? with _ | vk
    · rw [evict_of_empty_bucket h hB]
      exact w
    · rcases he : alookup c.keyMap vk with _ | e
      · rw [evict_of_no_entry h hB he]
        exact w
      · have hBnd : B.Nodup := w.bucket_nodup _ _ h
        have hsplit : B.dropLast ++ [vk] = B :=
          List.dropLast_append_getLast? vk hB
        have hvkB : vk ∈ B := by
          rw [← hsplit]
          exact List.mem_append_right _ (List.mem_singleton.2 rfl)
        have hfmin : e.frequency = c.minFreq := freq_of_mem_bucket w h hvkB he
        have hvknr : vk ∉ B.dropLast := by
          intro hmem
          have hnd := hsplit ▸ hBnd
          rcases List.nodup_append.1 hnd with ⟨_, _, hdisj⟩
          exact hdisj hmem (List.mem_singleton.2 rfl)
        have hsub : List.Sublist B.dropLast B := by
          have h0 : List.Sublist B.dropLast (B.dropLast ++ [vk]) :=
            List.sublist_append_left _ _
          rw [hsplit] at h0
          exact h0
        have hkm := evict_keyMap h hB he
        have hfm := evict_freqMap_lookup h hB he w.fm_nodup
        have hlk : ∀ k', alookup (evict c).keyMap k' =
            if k' = vk then none else alookup c.keyMap k' := by
          intro k'
          rw [hkm, alookup_adel_eq _ _ _ w.km_nodup]
        refine ⟨?_, ?_, ?_, ?_, ?_, ?_, ?_, ?_, ?_⟩
        · rw [hkm]
          exact adel_keys_nodup _ w.km_nodup
        · exact evict_fm_nodup w.fm_nodup
        · intro f B' hB'
          rw [hfm f] at hB'
          by_cases h2 : f = c.minFreq
          · rw [if_pos h2] at hB'
            by_cases h3 : B.dropLast = []
            · rw [if_pos h3] at hB'
              cases hB'
            · rw [if_neg h3, Option.some.injEq] at hB'
              rw [← hB']
              exact hBnd.sublist hsub
          · rw [if_neg h2] at hB'
            exact w.bucket_nodup f B' hB'
        · intro f B' hB'
          rw [hfm f] at hB'
          by_cases h2 : f = c.minFreq
          · rw [if_pos h2] at hB'
            by_cases h3 : B.dropLast = []
            · rw [if_pos h3] at hB'
              cases hB'
            · rw [if_neg h3, Option.some.injEq] at hB'
              rw [← hB']
              exact h3
          · rw [if_neg h2] at hB'
            exact w.bucket_ne f B' hB'
        · intro k' e' hk'
          rw [hlk] at hk'
          by_cases hkey : k' = vk
          · rw [if_pos hkey] at hk'
            cases hk'
          · rw [if_neg hkey] at hk'
            have horig := w.in_bucket _ _ hk'
            show k' ∈ bucketOf (evict c) e'.frequency
            rw [bucketOf, hfm]
            by_cases hf2 : e'.frequency = c.minFreq
            · rw [if_pos hf2]
              rw [hf2] at horig
              have horigB : k' ∈ B := by
                have hb2 : bucketOf c c.minFreq = B := by
                  rw [bucketOf, h]
                  rfl
                rw [hb2] at horig
                exact horig
              have hdp : k' ∈ B.dropLast := by
                rw [← hsplit] at horigB
                rcases List.mem_append.1 horigB with hm | hm
                · exact hm
                · exact absurd (List.mem_singleton.1 hm) hkey
              by_cases h3 : B.dropLast = []
              · rw [h3] at hdp
                cases hdp
              · rw [if_neg h3]
                exact hdp
            · rw [if_neg hf2]
              exact horig
        · intro f B' hB' k' hk'B
          rw [hfm f] at hB'
          by_cases h2 : f = c.minFreq
          · rw [if_pos h2] at hB'
            by_cases h3 : B.dropLast = []
            · rw [if_pos h3] at hB'
              cases hB'
            · rw [if_neg h3, Option.some.injEq] at hB'
              rw [← hB'] at hk'B
              have hk'ne : k' ≠ vk := fun hkk => hvknr (hkk ▸ hk'B)
              have hmem : k' ∈ B := hsub.mem hk'B
              obtain ⟨e'', he'', hf''⟩ := w.bucket_freq _ _ h k' hmem
              refine ⟨e'', ?_, ?_⟩
              · rw [hlk, if_neg hk'ne]
                exact he''
              · rw [hf'', h2]
          · rw [if_neg h2] at hB'
            obtain ⟨e'', he'', hf''⟩ := w.bucket_freq f B' hB' k' hk'B
            have hk'ne : k' ≠ vk := by
              rintro rfl
              rw [he] at he''
              injection he'' with he''
              rw [← he''] at hf''
              rw [hfmin] at hf''
              exact h2 hf''.symm
            refine ⟨e'', ?_, ?_⟩
            · rw [hlk, if_neg hk'ne]
              exact he''
            · exact hf''
        · intro k' e' hk'
          rw [hlk] at hk'
          by_cases hkey : k' = vk
          · rw [if_pos hkey] at hk'
            cases hk'
          · rw [if_neg hkey] at hk'
            exact w.freq_pos _ _ hk'
        · intro k' e' hk'
          rw [evict_minFreq]
          rw [hlk] at hk'
          by_cases hkey : k' = vk
          · rw [if_pos hkey] at hk'
            cases hk'
          · rw [if_neg hkey] at hk'
            exact w.min_le _ _ hk'
        · have h1 := length_adel_some he
          have h2 := w.size_eq
          rw [evict_size h hB he, hkm]
          omega

/-- Rewriting an existing entry without changing its frequency (the value and
timestamp refresh of `Set` on an existing key) preserves well-formedness. -/
theorem WF_touch {c : Cache K V} (w : WF c) {key : K} {e e' : EntryV V}
    (hk : alookup c.keyMap key = some e) (hfreq : e'.frequency = e.frequency)
    (hpos : 1 ≤ e'.frequency) :
    WF { c with keyMap := aset c.keyMap key e' } := by
  have hlk : ∀ k', alookup (aset c.keyMap key e') k' =
      if k' = key then some e' else alookup c.keyMap k' := by
    intro k'
    rw [alookup_aset_eq]
  refine ⟨?_, w.fm_nodup, w.bucket_nodup, w.bucket_ne, ?_, ?_, ?_, ?_, ?_⟩
  · exact aset_keys_nodup _ w.km_nodup
  · intro k' e'' hk'
    rw [hlk] at hk'
    by_cases hkey : k' = key
    · rw [if_pos hkey, Option.some.injEq] at hk'
      have horig := w.in_bucket _ _ hk
      rw [← hk']
      show k' ∈ bucketOf c e'.frequency
      rw [hfreq, hkey]
      exact horig
    · rw [if_neg hkey] at hk'
      exact w.in_bucket _ _ hk'
  · intro f B hB k' hk'B
    obtain ⟨e'', he'', hf''⟩ := w.bucket_freq f B hB k' hk'B
    by_cases hkey : k' = key
    · refine ⟨e', ?_, ?_⟩
      · rw [hlk, if_pos hkey]
      · rw [hkey] at he''
        rw [hk] at he''
        injection he'' with he''
        rw [hfreq, he'']
        exact hf''
    · refine ⟨e'', ?_, hf''⟩
      rw [hlk, if_neg hkey]
      exact he''
  · intro k' e'' hk'
    rw [hlk] at hk'
    by_cases hkey : k' = key
    · rw [if_pos hkey, Option.some.injEq] at hk'
      rw [← hk']
      exact hpos
    · rw [if_neg hkey] at hk'
      exact w.freq_pos _ _ hk'
  · intro k' e'' hk'
    rw [hlk] at hk'
    by_cases hkey : k' = key
    · rw [if_pos hkey, Option.some.injEq] at hk'
      have := w.min_le _ _ hk
      rw [← hk']
      show c.minFreq ≤ e'.frequency
      rw [hfreq]
      exact this
    · rw [if_neg hkey] at hk'
      exact w.min_le _ _ hk'
  · show c.size = ((aset c.keyMap key e').length : Int)
    rw [length_aset_some _ hk]
    exact w.size_eq

/-- A key absent from the table is absent from every bucket. -/
theorem not_mem_bucket_of_none {c : Cache K V} (w : WF c) {key : K}
    (hk : alookup c.keyMap key = none) (f : Int) : key ∉ bucketOf c f := by
  intro hmem
  obtain ⟨e'', he'', _⟩ :=
    w.bucket_freq f _ (alookup_bucketOf_of_mem hmem) key hmem
  rw [hk] at he''
  cases he''

/-- Inserting a brand-new key at frequency 1 (the tail of `Set`'s new-key
branch) preserves well-formedness. -/
theorem WF_insert {c : Cache K V} (w : WF c) {key : K} (v : V) (now : Int)
    (hk : alookup c.keyMap key = none) :
    WF { c with
           keyMap := aset c.keyMap key { value := v, frequency := 1, createdAt := now },
           freqMap := aset c.freqMap 1 (key :: bucketOf c 1),
           minFreq := 1,
           size := c.size + 1 } := by
  have hlk : ∀ k', alookup (aset c.keyMap key
      { value := v, frequency := 1, createdAt := now }) k' =
      if k' = key then some { value := v, frequency := 1, createdAt := now }
      else alookup c.keyMap k' := by
    intro k'
    rw [alookup_aset_eq]
  have hfmlk : ∀ f, alookup (aset c.freqMap 1 (key :: bucketOf c 1)) f =
      if f = 1 then some (key :: bucketOf c 1) else alookup c.freqMap f := by
    intro f
    rw [alookup_aset_eq]
  have hknb := not_mem_bucket_of_none w hk
  refine ⟨?_, ?_, ?_, ?_, ?_, ?_, ?_, ?_, ?_⟩
  · exact aset_keys_nodup _ w.km_nodup
  · exact aset_keys_nodup _ w.fm_nodup
  · intro f B hB
    rw [hfmlk f] at hB
    by_cases h1 : f = 1
    · rw [if_pos h1, Option.some.injEq] at hB
      rw [← hB]
      exact List.nodup_cons.2 ⟨hknb 1, bucketOf_nodup w _⟩
    · rw [if_neg h1] at hB
      exact w.bucket_nodup f B hB
  · intro f B hB
    rw [hfmlk f] at hB
    by_cases h1 : f = 1
    · rw [if_pos h1, Option.some.injEq] at hB
      rw [← hB]
      exact List.cons_ne_nil _ _
    · rw [if_neg h1] at hB
      exact w.bucket_ne f B hB
  · intro k' e' hk'
    rw [hlk] at hk'
    by_cases hkey : k' = key
    · rw [if_pos hkey, Option.some.injEq] at hk'
      rw [← hk']
      show k' ∈ (alookup (aset c.freqMap 1 (key :: bucketOf c 1))
        (1 : Int)).getD []
      rw [hfmlk, if_pos rfl]
      rw [hkey]
      exact List.mem_cons_self _ _
    · rw [if_neg hkey] at hk'
      have horig := w.in_bucket _ _ hk'
      show k' ∈ (alookup (aset c.freqMap 1 (key :: bucketOf c 1))
        e'.frequency).getD []
      rw [hfmlk]
      by_cases hf1 : e'.frequency = 1
      · rw [if_pos hf1]
        rw [hf1] at horig
        exact List.mem_cons_of_mem _ horig
      · rw [if_neg hf1]
        exact horig
  · intro f B hB k' hk'B
    rw [hfmlk f] at hB
    by_cases h1 : f = 1
    · rw [if_pos h1, Option.some.injEq] at hB
      rw [← hB] at hk'B
      rcases List.mem_cons.1 hk'B with hc | hc
      · refine ⟨{ value := v, frequency := 1, createdAt := now }, ?_, ?_⟩
        · rw [hlk, if_pos hc]
        · rw [h1]
      · have hk'ne : k' ≠ key := fun hkk => hknb 1 (hkk ▸ hc)
        obtain ⟨e'', he'', hf''⟩ :=
          w.bucket_freq _ _ (alookup_bucketOf_of_mem hc) k' hc
        refine ⟨e'', ?_, ?_⟩
        · rw [hlk, if_neg hk'ne]
          exact he''
        · rw [hf'', h1]
    · rw [if_neg h1] at hB
      obtain ⟨e'', he'', hf''⟩ := w.bucket_freq f B hB k' hk'B
      have hk'ne : k' ≠ key := by
        rintro rfl
        rw [hk] at he''
        cases he''
      refine ⟨e'', ?_, hf''⟩
      rw [hlk, if_neg hk'ne]
      exact he''
  · intro k' e' hk'
    rw [hlk] at hk'
    by_cases hkey : k' = key
    · rw [if_pos hkey, Option.some.injEq] at hk'
      rw [← hk']
    · rw [if_neg hkey] at hk'
      exact w.freq_pos _ _ hk'
  · intro k' e' hk'
    rw [hlk] at hk'
    by_cases hkey : k' = key
    · rw [if_pos hkey, Option.some.injEq] at hk'
      rw [← hk']
    · rw [if_neg hkey] at hk'
      exact w.freq_pos _ _ hk'
  · show c.size + 1 = ((aset c.keyMap key _).length : Int)
    rw [length_aset_none _ hk]
    have := w.size_eq
    push_cast
    omega

/-- `evict` never materializes an absent key. -/
theorem evict_lookup_none {c : Cache K V} (w : WF c) {key : K}
    (hk : alookup c.keyMap key = none) :
    alookup (evict c).keyMap key = none := by
  rcases h : alookup c.freqMap c.minFreq with _ | B
  · rw [evict_of_no_bucket h]
    exact hk
  · rcases hB : B.getLast? with _ | vk
    · rw [evict_of_empty_bucket h hB]
      exact hk
    · rcases he : alookup c.keyMap vk with _ | e
      · rw [evict_of_no_entry h hB he]
        exact hk
      · rw [evict_keyMap h hB he]
        have hne : key ≠ vk := by
          rintro rfl
          rw [hk] at he
          cases he
        rw [alookup_adel_ne _ hne]
        exact hk

theorem WF_Set {c : Cache K V} (w : WF c) (now : Int) (key : K) (v : V) :
    WF (Set c now key v) := by
  by_cases hcap : c.capacity = 0
  · rw [Set_of_zero now key v hcap]
    exact w
  · rcases hk : alookup c.keyMap key with _ | e
    · rw [Set_of_new now v hcap hk]
      have w1 : WF (if c.size ≥ c.capacity then evict c else c) := by
        split_ifs with hfull
        · exact WF_evict w
        · exact w
      have hk1 : alookup (if c.size ≥ c.capacity then evict c else c).keyMap key = none := by
        split_ifs with hfull
        · exact evict_lookup_none w hk
        · exact hk
      exact WF_insert w1 v now hk1
    · rw [Set_of_existing now v hcap hk]
      have hpos := w.freq_pos _ _ hk
      have hfr : ({ e with value := v, createdAt := now } : EntryV V).frequency
          = e.frequency := rfl
      exact WF_increment (WF_touch w hk hfr (hfr.symm ▸ hpos)) key

theorem WF_Get {c : Cache K V} (w : WF c) (now : Int) (key : K) :
    WF (Get c now key).2 := by
  rcases hk : alookup c.keyMap key with _ | e
  · rw [Get_of_none now hk]
    exact ⟨w.km_nodup, w.fm_nodup, w.bucket_nodup, w.bucket_ne, w.in_bucket,
      w.bucket_freq, w.freq_pos, w.min_le, w.size_eq⟩
  · by_cases hx : now - e.createdAt > c.ttl
    · rw [Get_of_expired hk hx]
      have wd := WF_deleteKey w key
      exact ⟨wd.km_nodup, wd.fm_nodup, wd.bucket_nodup, wd.bucket_ne, wd.in_bucket,
        wd.bucket_freq, wd.freq_pos, wd.min_le, wd.size_eq⟩
    · rw [Get_of_hit hk hx]
      have wi := WF_increment w key
      exact ⟨wi.km_nodup, wi.fm_nodup, wi.bucket_nodup, wi.bucket_ne, wi.in_bucket,
        wi.bucket_freq, wi.freq_pos, wi.min_le, wi.size_eq⟩

theorem WF_sweep_fold (now : Int) :
    ∀ (l : List (K × EntryV V)) (c : Cache K V), WF c →
      WF (l.foldl
        (fun acc kv => if now - kv.2.createdAt > acc.ttl then deleteKey acc kv.1 else acc) c) := by
  intro l
  induction l with
  | nil =>
      intro c w
      exact w
  | cons hd tl ih =>
      intro c w
      simp only [List.foldl_cons]
      by_cases hx : now - hd.2.createdAt > c.ttl
      · rw [if_pos hx]
        exact ih _ (WF_deleteKey w hd.1)
      · rw [if_neg hx]
        exact ih _ w

theorem WF_cleanupExpired {c : Cache K V} (w : WF c) (now : Int) :
    WF (cleanupExpired c now) :=
  WF_sweep_fold now c.keyMap c w

theorem WF_applyOp {c : Cache K V} (w : WF c) (op : COp K V) :
    WF (applyOp c op) := by
  rcases op with ⟨now, k⟩ | ⟨now, k, v⟩ | _ | now
  · exact WF_Get w now k
  · exact WF_Set w now k v
  · exact w
  · exact WF_cleanupExpired w now

theorem WF_New (capacity ttl cleanupInterval : Int) (hasCallback : Bool) :
    WF (New capacity ttl cleanupInterval hasCallback : Cache K V) := by
  refine ⟨?_, ?_, ?_, ?_, ?_, ?_, ?_, ?_, ?_⟩ <;>
    simp [New]

end WFPres

/-! ## Capacity invariant preservation -/

section CapPres

/-- On a well-formed cache whose `minFreq` bucket is live, `evict` removes
exactly one entry: there is a victim with a live entry, and the size drops. -/
theorem evict_removes {c : Cache K V} (w : WF c)
    (hb : alookup c.freqMap c.minFreq ≠ none) :
    ∃ B vk e, alookup c.freqMap c.minFreq = some B ∧ B.getLast? = some vk ∧
      alookup c.keyMap vk = some e ∧ (evict c).size = c.size - 1 ∧
      (evict c).keyMap.length + 1 = c.keyMap.length := by
  rcases hb' : alookup c.freqMap c.minFreq with _ | B
  · exact absurd hb' hb
  · have hBne : B ≠ [] := w.bucket_ne _ _ hb'
    have hsome : B.getLast?.isSome := List.getLast?_isSome.2 hBne
    rcases hB : B.getLast? with _ | vk
    · rw [hB] at hsome
      cases hsome
    · have hsplit : B.dropLast ++ [vk] = B := List.dropLast_append_getLast? vk hB
      have hvkB : vk ∈ B := by
        rw [← hsplit]
        exact List.mem_append_right _ (List.mem_singleton.2 rfl)
      obtain ⟨e, he, _⟩ := w.bucket_freq _ _ hb' vk hvkB
      refine ⟨B, vk, e, ?_, hB, he, evict_size hb' hB he, ?_⟩
      · rfl
      rw [evict_keyMap hb' hB he]
      exact length_adel_some he

theorem CapInv_increment {c : Cache K V} (w : WF c) (ci : CapInv c) (key : K) :
    CapInv (increment c key) := by
  intro hcap
  rw [increment_capacity] at hcap
  obtain ⟨hle, hfull⟩ := ci hcap
  rcases hk : alookup c.keyMap key with _ | e
  · rw [increment_of_none hk]
    exact ci hcap
  · have hfm := increment_freqMap_lookup hk w.fm_nodup
    have hmf := increment_minFreq hk
    refine ⟨?_, ?_⟩
    · rw [increment_capacity, increment_size]
      exact hle
    · rw [increment_capacity, increment_size]
      intro hsz hcap1
      have hbmin := hfull hsz hcap1
      rw [hmf, hfm]
      by_cases h1 : berase (bucketOf c e.frequency) key = [] ∧ c.minFreq = e.frequency
      · rw [if_pos h1, if_pos (by rw [h1.2] : c.minFreq + 1 = e.frequency + 1)]
        intro hcon
        cases hcon
      · rw [if_neg h1]
        by_cases h2 : c.minFreq = e.frequency + 1
        · rw [if_pos h2]
          intro hcon
          cases hcon
        · rw [if_neg h2]
          by_cases h3 : c.minFreq = e.frequency
          · rw [if_pos h3]
            have h4 : ¬ berase (bucketOf c e.frequency) key = [] := fun hr => h1 ⟨hr, h3⟩
            rw [if_neg h4]
            intro hcon
            cases hcon
          · rw [if_neg h3]
            exact hbmin

theorem CapInv_deleteKey {c : Cache K V} (ci : CapInv c) (key : K) :
    CapInv (deleteKey c key) := by
  intro hcap
  rw [deleteKey_capacity] at hcap
  obtain ⟨hle, _⟩ := ci hcap
  rcases hk : alookup c.keyMap key with _ | e
  · rw [deleteKey_of_none hk]
    exact ci hcap
  · refine ⟨?_, ?_⟩
    · rw [deleteKey_capacity, deleteKey_size hk]
      omega
    · rw [deleteKey_capacity, deleteKey_size hk]
      intro hsz hcap1
      exfalso
      omega

theorem CapInv_Set {c : Cache K V} (w : WF c) (ci : CapInv c)
    (now : Int) (key : K) (v : V) : CapInv (Set c now key v) := by
  by_cases hcap0 : c.capacity = 0
  · rw [Set_of_zero now key v hcap0]
    exact ci
  · rcases hk : alookup c.keyMap key with _ | e
    · rw [Set_of_new now v hcap0 hk]
      by_cases hfull : c.size ≥ c.capacity
      · rw [if_pos hfull]
        intro hcap
        have hcap' : (0 : Int) ≤ c.capacity := by
          have := evict_capacity c
          rw [show ({ evict c with
              keyMap := aset (evict c).keyMap key { value := v, frequency := 1, createdAt := now },
              freqMap := aset (evict c).freqMap 1 (key :: bucketOf (evict c) 1),
              minFreq := 1, size := (evict c).size + 1 } : Cache K V).capacity
            = (evict c).capacity from rfl, this] at hcap
          exact hcap
        obtain ⟨hle, hmin⟩ := ci hcap'
        have hsz : c.size = c.capacity := le_antisymm hle hfull
        have hcap1 : (1 : Int) ≤ c.capacity := by omega
        have hbmin := hmin hsz hcap1
        obtain ⟨B, vk, e, hb', hB, he, hsize, _⟩ := evict_removes w hbmin
        refine ⟨?_, ?_⟩
        · show (evict c).size + 1 ≤ (evict c).capacity
          rw [hsize, evict_capacity]
          omega
        · intro _ _
          show alookup (aset (evict c).freqMap 1 (key :: bucketOf (evict c) 1)) 1 ≠ none
          rw [alookup_aset_self]
          intro hcon
          cases hcon
      · rw [if_neg hfull]
        intro hcap
        have hcap' : (0 : Int) ≤ c.capacity := hcap
        obtain ⟨hle, _⟩ := ci hcap'
        refine ⟨?_, ?_⟩
        · show c.size + 1 ≤ c.capacity
          omega
        · intro _ _
          show alookup (aset c.freqMap 1 (key :: bucketOf c 1)) 1 ≠ none
          rw [alookup_aset_self]
          intro hcon
          cases hcon
    · rw [Set_of_existing now v hcap0 hk]
      have hfr : ({ e with value := v, createdAt := now } : EntryV V).frequency
          = e.frequency := rfl
      have w' := WF_touch w hk hfr (hfr.symm ▸ w.freq_pos _ _ hk)
      have ci' : CapInv { c with
          keyMap := aset c.keyMap key { e with value := v, createdAt := now } } := ci
      exact CapInv_increment w' ci' key

theorem CapInv_Get {c : Cache K V} (w : WF c) (ci : CapInv c)
    (now : Int) (key : K) : CapInv (Get c now key).2 := by
  rcases hk : alookup c.keyMap key with _ | e
  · rw [Get_of_none now hk]
    exact ci
  · by_cases hx : now - e.createdAt > c.ttl
    · rw [Get_of_expired hk hx]
      exact CapInv_deleteKey ci key
    · rw [Get_of_hit hk hx]
      exact CapInv_increment w ci key

theorem CapInv_sweep_fold (now : Int) :
    ∀ (l : List (K × EntryV V)) (c : Cache K V), WF c → CapInv c →
      CapInv (l.foldl
        (fun acc kv => if now - kv.2.createdAt > acc.ttl then deleteKey acc kv.1 else acc) c) := by
  intro l
  induction l with
  | nil =>
      intro c _ ci
      exact ci
  | cons hd tl ih =>
      intro c w ci
      simp only [List.foldl_cons]
      by_cases hx : now - hd.2.createdAt > c.ttl
      · rw [if_pos hx]
        exact ih _ (WF_deleteKey w hd.1) (CapInv_deleteKey ci hd.1)
      · rw [if_neg hx]
        exact ih _ w ci

theorem CapInv_cleanupExpired {c : Cache K V} (w : WF c) (ci : CapInv c)
    (now : Int) : CapInv (cleanupExpired c now) :=
  CapInv_sweep_fold now c.keyMap c w ci

theorem CapInv_applyOp {c : Cache K V} (w : WF c) (ci : CapInv c)
    (op : COp K V) : CapInv (applyOp c op) := by
  rcases op with ⟨now, k⟩ | ⟨now, k, v⟩ | _ | now
  · exact CapInv_Get w ci now k
  · exact CapInv_Set w ci now k v
  · exact ci
  · exact CapInv_cleanupExpired w ci now

theorem CapInv_New (capacity ttl cleanupInterval : Int) (hasCallback : Bool) :
    CapInv (New capacity ttl cleanupInterval hasCallback : Cache K V) := by
  intro hcap
  refine ⟨hcap, ?_⟩
  intro hsz hcap1
  exfalso
  rw [New] at hsz hcap1
  simp only at hsz hcap1
  omega

end CapPres

/-! ## Ghost recency-stamp preservation -/

section StampPres

theorem stampOf_aset_self (touch : List (K × Nat)) (key : K) (clock : Nat) :
    stampOf (aset touch key clock) key = clock := by
  rw [stampOf, alookup_aset_self]
  rfl

theorem stampOf_aset_ne (touch : List (K × Nat)) (clock : Nat) {key x : K}
    (h : x ≠ key) : stampOf (aset touch key clock) x = stampOf touch x := by
  rw [stampOf, alookup_aset_ne _ _ h, stampOf]

theorem key_not_in_foreign_bucket {c : Cache K V} (w : WF c) {key : K}
    {e : EntryV V} (hk : alookup c.keyMap key = some e) {f : Int}
    (hne : f ≠ e.frequency) : key ∉ bucketOf c f := by
  intro hmem
  exact hne (freq_of_mem_bucket w (alookup_bucketOf_of_mem hmem) hmem hk).symm

theorem mem_bucketOf_of_lookup {c : Cache K V} {f : Int} {B : List K}
    (hB : alookup c.freqMap f = some B) {x : K} (hx : x ∈ B) :
    x ∈ bucketOf c f := by
  rw [bucketOf, hB]
  exact hx

theorem stampsOK0_mono_clock {fm : List (Int × List K)} {touch : List (K × Nat)}
    {cl cl' : Nat} (h : stampsOK0 fm touch cl) (hle : cl ≤ cl') :
    stampsOK0 fm touch cl' := by
  refine ⟨h.1, ?_⟩
  intro f B hB k hkB
  exact lt_of_lt_of_le (h.2 f B hB k hkB) hle

/-- Stamping a key that sits in no bucket leaves the invariant intact. -/
theorem stampsOK0_stamp_absent {c : Cache K V} {touch : List (K × Nat)}
    {clock : Nat} (h : stampsOK0 c.freqMap touch clock) {key : K}
    (hnb : ∀ f, key ∉ bucketOf c f) :
    stampsOK0 c.freqMap (aset touch key clock) (clock + 1) := by
  have hne : ∀ f B, alookup c.freqMap f = some B → ∀ x ∈ B, x ≠ key := by
    intro f B hB x hx hxk
    exact hnb f (mem_bucketOf_of_lookup hB (hxk ▸ hx))
  refine ⟨?_, ?_⟩
  · intro f B hB
    refine (h.1 f B hB).imp_of_mem ?_
    intro a b ha hb hr
    rw [stampOf_aset_ne _ _ (hne f B hB a ha), stampOf_aset_ne _ _ (hne f B hB b hb)]
    exact hr
  · intro f B hB k hkB
    rw [stampOf_aset_ne _ _ (hne f B hB k hkB)]
    exact Nat.lt_succ_of_lt (h.2 f B hB k hkB)

theorem stampsOK0_increment {c : Cache K V} (w : WF c)
    {touch : List (K × Nat)} {clock : Nat}
    (h : stampsOK0 c.freqMap touch clock) (key : K) :
    stampsOK0 (increment c key).freqMap (aset touch key clock) (clock + 1) := by
  rcases hk : alookup c.keyMap key with _ | e
  · rw [increment_of_none hk]
    exact stampsOK0_stamp_absent h (not_mem_bucket_of_none w hk)
  · have hfm := increment_freqMap_lookup hk w.fm_nodup
    have hbp := bucket_present w hk
    have hBnd := w.bucket_nodup _ _ hbp
    have hnewne : ∀ x ∈ bucketOf c (e.frequency + 1), x ≠ key := by
      intro x hx hxk
      exact key_not_in_foreign_bucket w hk
        (show e.frequency + 1 ≠ e.frequency by omega) (hxk ▸ hx)
    have hremne : ∀ x ∈ berase (bucketOf c e.frequency) key, x ≠ key := by
      intro x hx hxk
      exact not_mem_berase hBnd key (hxk ▸ hx)
    have hothne : ∀ f, f ≠ e.frequency → ∀ B, alookup c.freqMap f = some B →
        ∀ x ∈ B, x ≠ key := by
      intro f hf B hB x hx hxk
      exact key_not_in_foreign_bucket w hk hf (mem_bucketOf_of_lookup hB (hxk ▸ hx))
    have hnew_bound : ∀ x ∈ bucketOf c (e.frequency + 1), stampOf touch x < clock := by
      intro x hx
      have hlk := alookup_bucketOf_of_mem hx
      exact h.2 _ _ hlk x hx
    refine ⟨?_, ?_⟩
    · intro f B hB
      rw [hfm f] at hB
      by_cases h1 : f = e.frequency + 1
      · rw [if_pos h1, Option.some.injEq] at hB
        rw [← hB]
        refine List.pairwise_cons.2 ⟨?_, ?_⟩
        · intro b hb2
          rw [stampOf_aset_self, stampOf_aset_ne _ _ (hnewne b hb2)]
          exact hnew_bound b hb2
        · rcases hnb2 : alookup c.freqMap (e.frequency + 1) with _ | B2
          · rw [bucketOf, hnb2]
            exact List.Pairwise.nil
          · have hBeq : bucketOf c (e.frequency + 1) = B2 := by
              rw [bucketOf, hnb2]
              rfl
            rw [hBeq]
            refine (h.1 _ _ hnb2).imp_of_mem ?_
            intro a b ha hb hr
            have hane : a ≠ key := hnewne a (hBeq ▸ ha)
            have hbne : b ≠ key := hnewne b (hBeq ▸ hb)
            rw [stampOf_aset_ne _ _ hane, stampOf_aset_ne _ _ hbne]
            exact hr
      · rw [if_neg h1] at hB
        by_cases h2 : f = e.frequency
        · rw [if_pos h2] at hB
          by_cases h3 : berase (bucketOf c e.frequency) key = []
          · rw [if_pos h3] at hB
            cases hB
          · rw [if_neg h3, Option.some.injEq] at hB
            rw [← hB]
            have hp : (berase (bucketOf c e.frequency) key).Pairwise
                (fun a b => stampOf touch b < stampOf touch a) :=
              List.Pairwise.sublist (berase_sublist _ _) (h.1 _ _ hbp)
            refine hp.imp_of_mem ?_
            intro a b ha hb hr
            rw [stampOf_aset_ne _ _ (hremne a ha), stampOf_aset_ne _ _ (hremne b hb)]
            exact hr
        · rw [if_neg h2] at hB
          refine (h.1 f B hB).imp_of_mem ?_
          intro a b ha hb hr
          rw [stampOf_aset_ne _ _ (hothne f h2 B hB a ha),
             stampOf_aset_ne _ _ (hothne f h2 B hB b hb)]
          exact hr
    · intro f B hB k hkB
      by_cases hkey : k = key
      · rw [hkey, stampOf_aset_self]
        omega
      · rw [stampOf_aset_ne _ _ hkey]
        rw [hfm f] at hB
        by_cases h1 : f = e.frequency + 1
        · rw [if_pos h1, Option.some.injEq] at hB
          rw [← hB] at hkB
          rcases List.mem_cons.1 hkB with hc | hc
          · exact absurd hc hkey
          · exact Nat.lt_succ_of_lt (hnew_bound k hc)
        · rw [if_neg h1] at hB
          by_cases h2 : f = e.frequency
          · rw [if_pos h2] at hB
            by_cases h3 : berase (bucketOf c e.frequency) key = []
            · rw [if_pos h3] at hB
              cases hB
            · rw [if_neg h3, Option.some.injEq] at hB
              rw [← hB] at hkB
              have hmem : k ∈ bucketOf c e.frequency := mem_berase hkB
              exact Nat.lt_succ_of_lt (h.2 _ _ hbp k hmem)
          · rw [if_neg h2] at hB
            exact Nat.lt_succ_of_lt (h.2 f B hB k hkB)

theorem stampsOK0_deleteKey {c : Cache K V} (w : WF c)
    {touch : List (K × Nat)} {clock : Nat}
    (h : stampsOK0 c.freqMap touch clock) (key : K) :
    stampsOK0 (deleteKey c key).freqMap touch clock := by
  rcases hk : alookup c.keyMap key with _ | e
  · rw [deleteKey_of_none hk]
    exact h
  · have hfm := deleteKey_freqMap_lookup hk w.fm_nodup
    have hbp := bucket_present w hk
    refine ⟨?_, ?_⟩
    · intro f B hB
      rw [hfm f] at hB
      by_cases h2 : f = e.frequency
      · rw [if_pos h2] at hB
        by_cases h3 : berase (bucketOf c e.frequency) key = []
        · rw [if_pos h3] at hB
          cases hB
        · rw [if_neg h3, Option.some.injEq] at hB
          rw [← hB]
          exact List.Pairwise.sublist (berase_sublist _ _) (h.1 _ _ hbp)
      · rw [if_neg h2] at hB
        exact h.1 f B hB
    · intro f B hB k hkB
      rw [hfm f] at hB
      by_cases h2 : f = e.frequency
      · rw [if_pos h2] at hB
        by_cases h3 : berase (bucketOf c e.frequency) key = []
        · rw [if_pos h3] at hB
          cases hB
        · rw [if_neg h3, Option.some.injEq] at hB
          rw [← hB] at hkB
          exact h.2 _ _ hbp k (mem_berase hkB)
      · rw [if_neg h2] at hB
        exact h.2 f B hB k hkB

theorem stampsOK0_evict {c : Cache K V} (w : WF c)
    {touch : List (K × Nat)} {clock : Nat}
    (h : stampsOK0 c.freqMap touch clock) :
    stampsOK0 (evict c).freqMap touch clock := by
  rcases hb : alookup c.freqMap c.minFreq with _ | B
  · rw [evict_of_no_bucket hb]
    exact h
  · rcases hB : B.getLast? with _ | vk
    · rw [evict_of_empty_bucket hb hB]
      exact h
    · rcases he : alookup c.keyMap vk with _ | e
      · rw [evict_of_no_entry hb hB he]
        exact h
      · have hfm := evict_freqMap_lookup hb hB he w.fm_nodup
        have hsplit : B.dropLast ++ [vk] = B := List.dropLast_append_getLast? vk hB
        have hsub : List.Sublist B.dropLast B := by
          have h0 : List.Sublist B.dropLast (B.dropLast ++ [vk]) :=
            List.sublist_append_left _ _
          rw [hsplit] at h0
          exact h0
        refine ⟨?_, ?_⟩
        · intro f B' hB'
          rw [hfm f] at hB'
          by_cases h2 : f = c.minFreq
          · rw [if_pos h2] at hB'
            by_cases h3 : B.dropLast = []
            · rw [if_pos h3] at hB'
              cases hB'
            · rw [if_neg h3, Option.some.injEq] at hB'
              rw [← hB']
              exact List.Pairwise.sublist hsub (h.1 _ _ hb)
          · rw [if_neg h2] at hB'
            exact h.1 f B' hB'
        · intro f B' hB' k hkB
          rw [hfm f] at hB'
          by_cases h2 : f = c.minFreq
          · rw [if_pos h2] at hB'
            by_cases h3 : B.dropLast = []
            · rw [if_pos h3] at hB'
              cases hB'
            · rw [if_neg h3, Option.some.injEq] at hB'
              rw [← hB'] at hkB
              exact h.2 _ _ hb k (hsub.mem hkB)
          · rw [if_neg h2] at hB'
            exact h.2 f B' hB' k hkB

theorem stampsOK0_insert {c1 : Cache K V} (w1 : WF c1)
    {touch : List (K × Nat)} {clock : Nat}
    (h : stampsOK0 c1.freqMap touch clock) {key : K}
    (hk1 : alookup c1.keyMap key = none) :
    stampsOK0 (aset c1.freqMap 1 (key :: bucketOf c1 1))
      (aset touch key clock) (clock + 1) := by
  have hnb := not_mem_bucket_of_none w1 hk1
  have hb1ne : ∀ x ∈ bucketOf c1 1, x ≠ key := by
    intro x hx hxk
    exact hnb 1 (hxk ▸ hx)
  have hb1bound : ∀ x ∈ bucketOf c1 1, stampOf touch x < clock := by
    intro x hx
    exact h.2 _ _ (alookup_bucketOf_of_mem hx) x hx
  refine ⟨?_, ?_⟩
  · intro f B hB
    rw [alookup_aset_eq] at hB
    by_cases h1 : f = 1
    · rw [if_pos h1, Option.some.injEq] at hB
      rw [← hB]
      refine List.pairwise_cons.2 ⟨?_, ?_⟩
      · intro b hb2
        rw [stampOf_aset_self, stampOf_aset_ne _ _ (hb1ne b hb2)]
        exact hb1bound b hb2
      · rcases hnb2 : alookup c1.freqMap 1 with _ | B2
        · rw [bucketOf, hnb2]
          exact List.Pairwise.nil
        · have hBeq : bucketOf c1 1 = B2 := by
            rw [bucketOf, hnb2]
            rfl
          rw [hBeq]
          refine (h.1 _ _ hnb2).imp_of_mem ?_
          intro a b ha hb hr
          rw [stampOf_aset_ne _ _ (hb1ne a (hBeq ▸ ha)),
             stampOf_aset_ne _ _ (hb1ne b (hBeq ▸ hb))]
          exact hr
    · rw [if_neg h1] at hB
      have hfne : ∀ x ∈ B, x ≠ key := by
        intro x hx hxk
        exact hnb f (mem_bucketOf_of_lookup hB (hxk ▸ hx))
      refine (h.1 f B hB).imp_of_mem ?_
      intro a b ha hb hr
      rw [stampOf_aset_ne _ _ (hfne a ha), stampOf_aset_ne _ _ (hfne b hb)]
      exact hr
  · intro f B hB k hkB
    by_cases hkey : k = key
    · rw [hkey, stampOf_aset_self]
      omega
    · rw [stampOf_aset_ne _ _ hkey]
      rw [alookup_aset_eq] at hB
      by_cases h1 : f = 1
      · rw [if_pos h1, Option.some.injEq] at hB
        rw [← hB] at hkB
        rcases List.mem_cons.1 hkB with hc | hc
        · exact absurd hc hkey
        · exact Nat.lt_succ_of_lt (hb1bound k hc)
      · rw [if_neg h1] at hB
        exact Nat.lt_succ_of_lt (h.2 f B hB k hkB)

theorem stampsOK0_sweep_fold (now : Int) {touch : List (K × Nat)} {clock : Nat} :
    ∀ (l : List (K × EntryV V)) (c : Cache K V), WF c →
      stampsOK0 c.freqMap touch clock →
      stampsOK0 (l.foldl
        (fun acc kv => if now - kv.2.createdAt > acc.ttl then deleteKey acc kv.1 else acc)
        c).freqMap touch clock := by
  intro l
  induction l with
  | nil =>
      intro c _ h
      exact h
  | cons hd tl ih =>
      intro c w h
      simp only [List.foldl_cons]
      by_cases hx : now - hd.2.createdAt > c.ttl
      · rw [if_pos hx]
        exact ih _ (WF_deleteKey w hd.1) (stampsOK0_deleteKey w h hd.1)
      · rw [if_neg hx]
        exact ih _ w h

end StampPres

/-! ## The combined invariant along instrumented runs -/

section GoodRuns

theorem stampsOK_iApply {s : IState K V} (w : WF s.cache) (h : stampsOK s)
    (op : COp K V) : stampsOK (iApply s op) := by
  rcases op with ⟨now, k⟩ | ⟨now, k, v⟩ | _ | now
  · show stampsOK0 (Get s.cache now k).2.freqMap
      (if (Get s.cache now k).1.isSome then aset s.touch k s.clock else s.touch)
      (s.clock + 1)
    rcases hk : alookup s.cache.keyMap k with _ | e
    · rw [Get_of_none now hk]
      simp only [Option.isSome_none, Bool.false_eq_true, if_false]
      exact stampsOK0_mono_clock h (Nat.le_succ _)
    · by_cases hx : now - e.createdAt > s.cache.ttl
      · rw [Get_of_expired hk hx]
        simp only [Option.isSome_none, Bool.false_eq_true, if_false]
        exact stampsOK0_mono_clock (stampsOK0_deleteKey w h k) (Nat.le_succ _)
      · rw [Get_of_hit hk hx]
        simp only [Option.isSome_some, if_true]
        exact stampsOK0_increment w h k
  · show stampsOK0 (Set s.cache now k v).freqMap
      (if s.cache.capacity = 0 then s.touch else aset s.touch k s.clock)
      (s.clock + 1)
    by_cases hcap0 : s.cache.capacity = 0
    · rw [Set_of_zero now k v hcap0, if_pos hcap0]
      exact stampsOK0_mono_clock h (Nat.le_succ _)
    · rw [if_neg hcap0]
      rcases hk : alookup s.cache.keyMap k with _ | e
      · rw [Set_of_new now v hcap0 hk]
        by_cases hfull : s.cache.size ≥ s.cache.capacity
        · rw [if_pos hfull]
          exact stampsOK0_insert (WF_evict w) (stampsOK0_evict w h)
            (evict_lookup_none w hk)
        · rw [if_neg hfull]
          exact stampsOK0_insert w h hk
      · rw [Set_of_existing now v hcap0 hk]
        have hfr : ({ e with value := v, createdAt := now } : EntryV V).frequency
            = e.frequency := rfl
        have w' := WF_touch w hk hfr (hfr.symm ▸ w.freq_pos _ _ hk)
        exact stampsOK0_increment w' h k
  · show stampsOK0 s.cache.freqMap s.touch (s.clock + 1)
    exact stampsOK0_mono_clock h (Nat.le_succ _)
  · show stampsOK0 (cleanupExpired s.cache now).freqMap s.touch (s.clock + 1)
    exact stampsOK0_mono_clock
      (stampsOK0_sweep_fold now s.cache.keyMap s.cache w h) (Nat.le_succ _)

theorem IGood_iApply {s : IState K V} (hg : IGood s) (op : COp K V) :
    IGood (iApply s op) := by
  obtain ⟨w, ci, hst⟩ := hg
  refine ⟨?_, ?_, stampsOK_iApply w hst op⟩
  · show WF (applyOp s.cache op)
    exact WF_applyOp w op
  · show CapInv (applyOp s.cache op)
    exact CapInv_applyOp w ci op

theorem IGood_init (capacity ttl cleanupInterval : Int) (hasCallback : Bool) :
    IGood (⟨New capacity ttl cleanupInterval hasCallback, [], 0⟩ : IState K V) := by
  refine ⟨WF_New capacity ttl cleanupInterval hasCallback,
    CapInv_New capacity ttl cleanupInterval hasCallback, ?_, ?_⟩
  · intro f B hB
    rw [New] at hB
    cases hB
  · intro f B hB
    rw [New] at hB
    cases hB

theorem IReachable_IGood {s : IState K V} (h : IReachable s) : IGood s := by
  induction h with
  | init capacity ttl cleanupInterval hasCallback =>
      exact IGood_init capacity ttl cleanupInterval hasCallback
  | step h op ih => exact IGood_iApply ih op

theorem Reachable_WF {c : Cache K V} (h : Reachable c) : WF c := by
  obtain ⟨s, hs, rfl⟩ := h
  exact (IReachable_IGood hs).1

theorem Reachable_CapInv {c : Cache K V} (h : Reachable c) : CapInv c := by
  obtain ⟨s, hs, rfl⟩ := h
  exact (IReachable_IGood hs).2.1

theorem Reachable_applyOp {c : Cache K V} (h : Reachable c) (op : COp K V) :
    Reachable (applyOp c op) := by
  obtain ⟨s, hs, rfl⟩ := h
  exact ⟨iApply s op, IReachable.step hs op, rfl⟩

theorem Reachable_New (capacity ttl cleanupInterval : Int) (hasCallback : Bool) :
    Reachable (New capacity ttl cleanupInterval hasCallback : Cache K V) :=
  ⟨⟨New capacity ttl cleanupInterval hasCallback, [], 0⟩,
    IReachable.init capacity ttl cleanupInterval hasCallback, rfl⟩

end GoodRuns

/-! ## Claim theorems -/

section Claims

/-- C5: `Stop()` is implemented as a bare `close(c.stop)`; closing the
channel a second time panics, so the sequence `Stop(); Stop()` is not a
defined, non-crashing outcome.  The first `Stop` succeeds, the second hits
the already-closed channel (modelled as `Except.error`). -/
theorem c5_stop_stop_panics :
    Stop (New 2 5 1 false : Cache Nat Nat) =
      Except.ok { (New 2 5 1 false : Cache Nat Nat) with stopClosed := true } ∧
    Stop { (New 2 5 1 false : Cache Nat Nat) with stopClosed := true } =
      Except.error () := by
  constructor
  · rfl
  · rfl

/-- C3 counterexample: with `ttl = 5` and an entry created at `t0 = 0`, a
`Get` at time `5 = t0 + ttl` (so `≥ t0 + T` as the claim demands) still
returns the value: the code expires strictly (`now - createdAt > ttl`),
so the claim's `≥` boundary case is a hit, not a miss. -/
theorem c3_counterexample :
    (0 : Int) + 5 ≤ 5 ∧ (Get c3cache 5 0).1 = some 42 := by
  decide

/-- C3 (amended): a `Get` at any time strictly later than `createdAt + ttl`
is a miss: it returns not-found, removes the entry, increments the miss
counter and the eviction counter, and fires the eviction callback when one
is registered. -/
theorem c3_lazy_expiry_strict {c : Cache K V} {key : K} {e : EntryV V} {now : Int}
    (hnd : (c.keyMap.map Prod.fst).Nodup)
    (hk : alookup c.keyMap key = some e)
    (hx : now > e.createdAt + c.ttl) :
    (Get c now key).1 = none ∧
    alookup (Get c now key).2.keyMap key = none ∧
    (Get c now key).2.misses = c.misses + 1 ∧
    (Get c now key).2.evictions = c.evictions + 1 ∧
    (Get c now key).2.evLog =
      (if c.hasCallback then c.evLog ++ [(key, e.value)] else c.evLog) := by
  have hx' : now - e.createdAt > c.ttl := by omega
  rw [Get_of_expired hk hx']
  refine ⟨rfl, ?_, ?_, ?_, ?_⟩
  · show alookup (deleteKey c key).keyMap key = none
    rw [deleteKey_keyMap hk]
    exact alookup_adel_self _ _ hnd
  · show (deleteKey c key).misses + 1 = c.misses + 1
    rw [deleteKey_misses]
  · show (deleteKey c key).evictions = c.evictions + 1
    exact deleteKey_evictions hk
  · show (deleteKey c key).evLog = _
    exact deleteKey_evLog hk

/-- Witness for the amended C3 at a concrete input: `ttl = 5`, entry created
at 0, queried at 6. -/
theorem c3_lazy_expiry_strict_witness :
    ((6 : Int) > 0 + 5) ∧
    ((Get c3cache 6 0).1 = none ∧
     alookup (Get c3cache 6 0).2.keyMap 0 = none ∧
     (Get c3cache 6 0).2.misses = c3cache.misses + 1 ∧
     (Get c3cache 6 0).2.evictions = c3cache.evictions + 1 ∧
     (Get c3cache 6 0).2.evLog =
       (if c3cache.hasCallback then c3cache.evLog ++ [(0, 42)] else c3cache.evLog)) :=
  ⟨by decide,
   c3_lazy_expiry_strict (by decide)
     (show alookup c3cache.keyMap 0 = some ⟨42, 1, 0⟩ by decide) (by decide)⟩

/-- C4 counterexample: lazy TTL expiry goes through the shared deletion
routine `deleteKey`, which does NOT leave `minFrequency` unchanged when it
empties the bucket at `minFrequency`: expiring the only (frequency-1) entry
raises `minFreq` from 1 to 2. -/
theorem c4_counterexample :
    c4cache.minFreq = 1 ∧ (Get c4cache 100 0).2.minFreq = 2 := by
  decide

/-- C4 (amended): `minFrequency` is raised in exactly two places, each time
by 1 and only when the bucket at `minFrequency` is emptied: the promotion
rule of `increment`, and the shared deletion routine `deleteKey` (used by
lazy TTL expiry and the sweeper) when the deleted entry's emptied bucket
sits at `minFrequency`.  The capacity-eviction routine `evict` never
changes `minFrequency`; and on any reachable cache that still has a
frequency-1 bucket, the entry `evict` would remove has frequency exactly 1,
so no eviction ever comes from a non-minimal bucket in that situation. -/
theorem c4_minfreq_discipline :
    (∀ (c : Cache K V) (key : K) (e : EntryV V), alookup c.keyMap key = some e →
       (increment c key).minFreq =
         (if berase (bucketOf c e.frequency) key = [] ∧ c.minFreq = e.frequency
          then c.minFreq + 1 else c.minFreq)) ∧
    (∀ (c : Cache K V) (key : K) (e : EntryV V), alookup c.keyMap key = some e →
       (deleteKey c key).minFreq =
         (if berase (bucketOf c e.frequency) key = [] ∧ c.minFreq = e.frequency
          then c.minFreq + 1 else c.minFreq)) ∧
    (∀ c : Cache K V, (evict c).minFreq = c.minFreq) ∧
    (∀ c : Cache K V, Reachable c →
       ∀ B1, alookup c.freqMap 1 = some B1 →
       ∀ B vk e, alookup c.freqMap c.minFreq = some B → B.getLast? = some vk →
         alookup c.keyMap vk = some e → e.frequency = 1) := by
  refine ⟨?_, ?_, ?_, ?_⟩
  · intro c key e hk
    exact increment_minFreq hk
  · intro c key e hk
    exact deleteKey_minFreq hk
  · intro c
    exact evict_minFreq c
  · intro c hr B1 hB1 B vk e hb hB he
    have w := Reachable_WF hr
    have hB1ne : B1 ≠ [] := w.bucket_ne _ _ hB1
    obtain ⟨y, hy⟩ := List.exists_mem_of_ne_nil B1 hB1ne
    obtain ⟨ey, hey, hfy⟩ := w.bucket_freq _ _ hB1 y hy
    have hmin1 := w.min_le _ _ hey
    rw [hfy] at hmin1
    have hvkB : vk ∈ B := by
      have hsplit := List.dropLast_append_getLast? vk hB
      rw [← hsplit]
      exact List.mem_append_right _ (List.mem_singleton.2 rfl)
    have hfv : e.frequency = c.minFreq := freq_of_mem_bucket w hb hvkB he
    have hp := w.freq_pos _ _ he
    omega

/-- Witness for the amended C4: the `deleteKey` rule evaluated on the
concrete cache of the counterexample. -/
theorem c4_minfreq_discipline_witness :
    alookup c4cache.keyMap 0 = some ⟨5, 1, 0⟩ ∧
    (deleteKey c4cache 0).minFreq =
      (if berase (bucketOf c4cache 1) 0 = [] ∧ c4cache.minFreq = 1
       then c4cache.minFreq + 1 else c4cache.minFreq) :=
  ⟨by decide, (@c4_minfreq_discipline Nat Nat _).2.1 c4cache 0 ⟨5, 1, 0⟩ (by decide)⟩

/-- C6: counter discipline.  A found `Get` bumps exactly `hits`; a not-found
`Get` bumps `misses` (and `hits` stays); and each removal — through the
shared deletion routine or through capacity eviction — bumps `evictions` by
exactly 1 and appends exactly one callback invocation with the removed
entry's key and value when a callback is registered. -/
theorem c6_counters (c : Cache K V) (now : Int) (key : K) :
    ((Get c now key).1.isSome = true →
       (Get c now key).2.hits = c.hits + 1 ∧
       (Get c now key).2.misses = c.misses ∧
       (Get c now key).2.evictions = c.evictions) ∧
    ((Get c now key).1 = none →
       (Get c now key).2.misses = c.misses + 1 ∧
       (Get c now key).2.hits = c.hits) ∧
    (∀ e, alookup c.keyMap key = some e →
       (deleteKey c key).evictions = c.evictions + 1 ∧
       (deleteKey c key).evLog =
         (if c.hasCallback then c.evLog ++ [(key, e.value)] else c.evLog)) ∧
    (∀ B vk e, alookup c.freqMap c.minFreq = some B → B.getLast? = some vk →
       alookup c.keyMap vk = some e →
       (evict c).evictions = c.evictions + 1 ∧
       (evict c).evLog =
         (if c.hasCallback then c.evLog ++ [(vk, e.value)] else c.evLog)) := by
  refine ⟨?_, ?_, ?_, ?_⟩
  · intro hfound
    rcases hk : alookup c.keyMap key with _ | e
    · rw [Get_of_none now hk] at hfound
      simp at hfound
    · by_cases hx : now - e.createdAt > c.ttl
      · rw [Get_of_expired hk hx] at hfound
        simp at hfound
      · rw [Get_of_hit hk hx]
        refine ⟨?_, ?_, ?_⟩
        · show (increment c key).hits + 1 = c.hits + 1
          rw [increment_hits]
        · show (increment c key).misses = c.misses
          rw [increment_misses]
        · show (increment c key).evictions = c.evictions
          rw [increment_evictions]
  · intro hmiss
    rcases hk : alookup c.keyMap key with _ | e
    · rw [Get_of_none now hk]
      exact ⟨rfl, rfl⟩
    · by_cases hx : now - e.createdAt > c.ttl
      · rw [Get_of_expired hk hx]
        constructor
        · show (deleteKey c key).misses + 1 = c.misses + 1
          rw [deleteKey_misses]
        · show (deleteKey c key).hits = c.hits
          rw [deleteKey_hits]
      · rw [Get_of_hit hk hx] at hmiss
        simp at hmiss
  · intro e hk
    exact ⟨deleteKey_evictions hk, deleteKey_evLog hk⟩
  · intro B vk e hb hB he
    exact ⟨evict_evictions hb hB he, evict_evLog hb hB he⟩

/-- Witness for C6: a concrete hit bumps `hits` only. -/
theorem c6_counters_witness :
    (Get c6cache 0 0).1.isSome = true ∧
    ((Get c6cache 0 0).2.hits = c6cache.hits + 1 ∧
     (Get c6cache 0 0).2.misses = c6cache.misses ∧
     (Get c6cache 0 0).2.evictions = c6cache.evictions) :=
  ⟨by decide, (c6_counters c6cache 0 0).1 (by decide)⟩

/-- C7: `Set` on an existing key (capacity positive) replaces the value,
resets the timestamp to `now` and increments the frequency by exactly 1 —
never back to 1 — and transforms the frequency index and `minFreq` exactly
as an (unexpired) `Get` hit on the same key would, leaving the size
unchanged. -/
theorem c7_set_existing {c : Cache K V} {key : K} {e : EntryV V}
    (hk : alookup c.keyMap key = some e) (hcap : 0 < c.capacity)
    (now now' : Int) (v : V) (hfresh : now' - e.createdAt ≤ c.ttl) :
    alookup (Set c now key v).keyMap key =
      some { value := v, frequency := e.frequency + 1, createdAt := now } ∧
    (Set c now key v).freqMap = (Get c now' key).2.freqMap ∧
    (Set c now key v).minFreq = (Get c now' key).2.minFreq ∧
    (Set c now key v).size = c.size := by
  have hcap0 : c.capacity ≠ 0 := by omega
  have hx : ¬ now' - e.createdAt > c.ttl := by omega
  rw [Set_of_existing now v hcap0 hk, Get_of_hit hk hx]
  have hk'' : alookup ({ c with
      keyMap := aset c.keyMap key { e with value := v, createdAt := now } } : Cache K V).keyMap
        key = some { e with value := v, createdAt := now } :=
    alookup_aset_self _ _ _
  refine ⟨?_, ?_, ?_, ?_⟩
  · rw [increment_keyMap hk'', alookup_aset_self]
  · simp [increment, hk, hk'', bucketOf]
  · simp [increment, hk, hk'', bucketOf]
  · rw [increment_size]

/-- Witness for C7 at a concrete cache. -/
theorem c7_set_existing_witness :
    alookup (Set c6cache 3 0 9).keyMap 0 = some ⟨9, 2, 3⟩ ∧
    (Set c6cache 3 0 9).freqMap = (Get c6cache 2 0).2.freqMap ∧
    (Set c6cache 3 0 9).minFreq = (Get c6cache 2 0).2.minFreq ∧
    (Set c6cache 3 0 9).size = c6cache.size := by
  have h := c7_set_existing
    (show alookup c6cache.keyMap 0 = some ⟨7, 1, 0⟩ by decide) (by decide) 3 2 9 (by decide)
  exact ⟨h.1.trans (by decide), h.2.1, h.2.2.1, h.2.2.2⟩

/-- C9: on any reachable cache with positive capacity, when a new-key insert
finds the cache full (`size ≥ capacity`, the only situation in which the
capacity-eviction routine runs), the bucket at `minFrequency` exists and is
non-empty and `evict` removes exactly one entry; the defensive early return
of `evict` is taken when the cache is empty, where it is a no-op. -/
theorem c9_eviction_defensive {c : Cache K V} (hr : Reachable c)
    (hcap : 1 ≤ c.capacity) :
    (c.size ≥ c.capacity →
       ∃ B, alookup c.freqMap c.minFreq = some B ∧ B ≠ [] ∧
         (evict c).size = c.size - 1 ∧
         (evict c).keyMap.length + 1 = c.keyMap.length) ∧
    (c.size = 0 → evict c = c) := by
  have w := Reachable_WF hr
  have ci := Reachable_CapInv hr
  constructor
  · intro hfull
    have hcap' : (0 : Int) ≤ c.capacity := by omega
    obtain ⟨hle, hmin⟩ := ci hcap'
    have hsz : c.size = c.capacity := le_antisymm hle hfull
    have hbmin := hmin hsz hcap
    obtain ⟨B, vk, e, hb, hB, he, hsize, hlen⟩ := evict_removes w hbmin
    exact ⟨B, hb, w.bucket_ne _ _ hb, hsize, hlen⟩
  · intro hz
    have hsz := w.size_eq
    have hlen0 : c.keyMap.length = 0 := by omega
    have hkm : c.keyMap = [] := List.length_eq_zero.1 hlen0
    rcases hb : alookup c.freqMap c.minFreq with _ | B
    · exact evict_of_no_bucket hb
    · exfalso
      have hBne := w.bucket_ne _ _ hb
      obtain ⟨y, hy⟩ := List.exists_mem_of_ne_nil B hBne
      obtain ⟨ey, hey, _⟩ := w.bucket_freq _ _ hb y hy
      rw [hkm] at hey
      cases hey

/-- Witness for C9: the full capacity-2 cache. -/
theorem c9_eviction_defensive_witness :
    c9cache.size ≥ c9cache.capacity ∧
    (∃ B, alookup c9cache.freqMap c9cache.minFreq = some B ∧ B ≠ [] ∧
       (evict c9cache).size = c9cache.size - 1 ∧
       (evict c9cache).keyMap.length + 1 = c9cache.keyMap.length) := by
  have hreach : Reachable c9cache :=
    Reachable_applyOp
      (Reachable_applyOp (Reachable_New 2 100 1 true) (COp.set 0 0 1))
      (COp.set 0 1 2)
  exact ⟨by decide, (c9_eviction_defensive hreach (by decide)).1 (by decide)⟩

/-- C1: LFU eviction policy.  On any reachable (instrumented) cache state,
when inserting a new key into a full cache (positive capacity) forces a
removal, the victim — the back of the `minFreq` bucket — has a live entry
whose frequency is minimal among all currently-held entries; among the
entries sharing that minimal frequency it is the least-recently-touched one
(smallest ghost touch stamp); and the subsequent `Set` indeed removes it.
In particular (Scenario A, keys `a b c` as `0 1 2`): capacity 2, after
`Set(a,1)`, `Set(b,2)`, `Get(a)`, the insert `Set(c,3)` evicts exactly `b`
(callback log `[(1, 2)]`) and leaves exactly the keys `{a, c}`. -/
theorem c1_lfu_eviction_policy :
    (∀ s : IState K V, IReachable s → 1 ≤ s.cache.capacity →
       ∀ key, alookup s.cache.keyMap key = none →
         s.cache.size ≥ s.cache.capacity →
       ∃ B vk e, alookup s.cache.freqMap s.cache.minFreq = some B ∧
         B.getLast? = some vk ∧ alookup s.cache.keyMap vk = some e ∧
         (∀ k' e', alookup s.cache.keyMap k' = some e' →
            e.frequency ≤ e'.frequency) ∧
         (∀ k' e', alookup s.cache.keyMap k' = some e' →
            e'.frequency = e.frequency → k' ≠ vk →
            stampOf s.touch vk < stampOf s.touch k') ∧
         (∀ now v, alookup (Set s.cache now key v).keyMap vk = none)) ∧
    ((Set scenA.cache 0 2 3).evLog = [(1, 2)] ∧
     (Set scenA.cache 0 2 3).keyMap.map Prod.fst = [0, 2]) := by
  constructor
  · intro s hreach hcap key hknew hfull
    obtain ⟨w, ci, hst⟩ := IReachable_IGood hreach
    have hcap' : (0 : Int) ≤ s.cache.capacity := by omega
    obtain ⟨hle, hmin⟩ := ci hcap'
    have hsz : s.cache.size = s.cache.capacity := le_antisymm hle hfull
    have hbmin := hmin hsz hcap
    obtain ⟨B, vk, e, hb, hB, he, hsize, hlen⟩ := evict_removes w hbmin
    have hsplit : B.dropLast ++ [vk] = B := List.dropLast_append_getLast? vk hB
    have hvkB : vk ∈ B := by
      rw [← hsplit]
      exact List.mem_append_right _ (List.mem_singleton.2 rfl)
    have hfv : e.frequency = s.cache.minFreq := freq_of_mem_bucket w hb hvkB he
    refine ⟨B, vk, e, hb, hB, he, ?_, ?_, ?_⟩
    · intro k' e' hk'
      rw [hfv]
      exact w.min_le _ _ hk'
    · intro k' e' hk' hfeq hne
      have hin := w.in_bucket _ _ hk'
      rw [hfeq, hfv] at hin
      have hinB : k' ∈ B := by
        rw [bucketOf, hb] at hin
        exact hin
      have hk'dl : k' ∈ B.dropLast := by
        rw [← hsplit] at hinB
        rcases List.mem_append.1 hinB with hm | hm
        · exact hm
        · exact absurd (List.mem_singleton.1 hm) hne
      have hpw := hst.1 _ _ hb
      rw [← hsplit] at hpw
      obtain ⟨_, _, hcross⟩ := List.pairwise_append.1 hpw
      exact hcross k' hk'dl vk (List.mem_singleton.2 rfl)
    · intro now v
      have hcap0 : s.cache.capacity ≠ 0 := by omega
      rw [Set_of_new now v hcap0 hknew, if_pos hfull]
      show alookup (aset (evict s.cache).keyMap key
        { value := v, frequency := 1, createdAt := now }) vk = none
      have hvkne : vk ≠ key := by
        rintro rfl
        rw [hknew] at he
        cases he
      rw [alookup_aset_ne _ _ hvkne, evict_keyMap hb hB he]
      exact alookup_adel_self _ _ w.km_nodup
  · constructor
    · decide
    · decide

/-- Witness for C1 applied to the Scenario A prefix with the new key `c = 2`. -/
theorem c1_lfu_eviction_policy_witness :
    (1 : Int) ≤ scenA.cache.capacity ∧
    alookup scenA.cache.keyMap 2 = none ∧
    scenA.cache.size ≥ scenA.cache.capacity ∧
    (∃ B vk e, alookup scenA.cache.freqMap scenA.cache.minFreq = some B ∧
       B.getLast? = some vk ∧ alookup scenA.cache.keyMap vk = some e ∧
       (∀ k' e', alookup scenA.cache.keyMap k' = some e' →
          e.frequency ≤ e'.frequency) ∧
       (∀ k' e', alookup scenA.cache.keyMap k' = some e' →
          e'.frequency = e.frequency → k' ≠ vk →
          stampOf scenA.touch vk < stampOf scenA.touch k') ∧
       (∀ now v, alookup (Set scenA.cache now 2 v).keyMap vk = none)) := by
  have hreach : IReachable scenA :=
    IReachable.step (IReachable.step (IReachable.step
      (IReachable.init 2 1000 1 true) (COp.set 0 0 1)) (COp.set 0 1 2)) (COp.get 0 0)
  exact ⟨by decide, by decide, by decide,
    (@c1_lfu_eviction_policy Nat Nat _).1 scenA hreach (by decide) 2
      (by decide) (by decide)⟩

theorem Set_capacity (c : Cache K V) (now : Int) (key : K) (v : V) :
    (Set c now key v).capacity = c.capacity := by
  by_cases hcap : c.capacity = 0
  · rw [Set_of_zero now key v hcap]
  · rcases hk : alookup c.keyMap key with _ | e
    · rw [Set_of_new now v hcap hk]
      show (if c.size ≥ c.capacity then evict c else c).capacity = c.capacity
      split_ifs with h
      · exact evict_capacity c
      · rfl
    · rw [Set_of_existing now v hcap hk]
      rw [increment_capacity]

theorem Set_size_existing {c : Cache K V} {key : K} {e : EntryV V} (now : Int) (v : V)
    (hcap : c.capacity ≠ 0) (hk : alookup c.keyMap key = some e) :
    (Set c now key v).size = c.size := by
  rw [Set_of_existing now v hcap hk, increment_size]

theorem Set_keys_existing {c : Cache K V} {key : K} {e : EntryV V} (now : Int) (v : V)
    (hcap : c.capacity ≠ 0) (hk : alookup c.keyMap key = some e) :
    (Set c now key v).keyMap.map Prod.fst = c.keyMap.map Prod.fst := by
  rw [Set_of_existing now v hcap hk]
  have hk'' : alookup ({ c with
      keyMap := aset c.keyMap key { e with value := v, createdAt := now } } : Cache K V).keyMap
        key = some { e with value := v, createdAt := now } :=
    alookup_aset_self _ _ _
  rw [increment_keyMap hk'']
  have h1 : key ∈ c.keyMap.map Prod.fst := mem_keys_of_alookup hk
  have h2 : (aset c.keyMap key { e with value := v, createdAt := now }).map Prod.fst
      = c.keyMap.map Prod.fst :=
    aset_keys_of_mem ({ e with value := v, createdAt := now }) h1
  show ((aset (aset c.keyMap key _) key _).map Prod.fst) = _
  rw [aset_keys_of_mem _ (by rw [h2]; exact h1), h2]

theorem evict_keys_subset {c : Cache K V} {x : K}
    (hx : x ∈ (evict c).keyMap.map Prod.fst) : x ∈ c.keyMap.map Prod.fst := by
  rcases h : alookup c.freqMap c.minFreq with _ | B
  · rw [evict_of_no_bucket h] at hx
    exact hx
  · rcases hB : B.getLast? with _ | vk
    · rw [evict_of_empty_bucket h hB] at hx
      exact hx
    · rcases he : alookup c.keyMap vk with _ | e
      · rw [evict_of_no_entry h hB he] at hx
        exact hx
      · rw [evict_keyMap h hB he] at hx
        exact (adel_keys_sublist _ _).mem hx

theorem c2_aux :
    ∀ (ops : List (Int × K × V)) (c : Cache K V) (seen : Finset K),
      Reachable c → 0 ≤ c.capacity →
      c.size = min ((seen.card : Int)) c.capacity →
      (∀ k ∈ c.keyMap.map Prod.fst, k ∈ seen) →
      ((seen.card : Int) ≤ c.capacity → ∀ k ∈ seen, k ∈ c.keyMap.map Prod.fst) →
      (runSets c ops).size =
        min (((seen ∪ (ops.map (fun x => x.2.1)).toFinset).card : Int)) c.capacity := by
  intro ops
  induction ops with
  | nil =>
      intro c seen hr hcap hsz hsub hsup
      simpa using hsz
  | cons op rest ih =>
      obtain ⟨now, key, v⟩ := op
      intro c seen hr hcap hsz hsub hsup
      have hr' : Reachable (Set c now key v) := Reachable_applyOp hr (COp.set now key v)
      have hcap' : (0 : Int) ≤ (Set c now key v).capacity := by
        rw [Set_capacity]
        exact hcap
      have w := Reachable_WF hr
      have ci := Reachable_CapInv hr
      have hcard0 : (0 : Int) ≤ (seen.card : Int) := Int.ofNat_nonneg _
      have hstep : runSets c ((now, key, v) :: rest) = runSets (Set c now key v) rest := rfl
      have hrhs : seen ∪ ((((now, key, v) :: rest).map (fun x => x.2.1)).toFinset)
          = insert key seen ∪ ((rest.map (fun x => x.2.1)).toFinset) := by
        rw [List.map_cons, List.toFinset_cons, Finset.union_insert, Finset.insert_union]
      rw [hstep, hrhs]
      by_cases hcap0 : c.capacity = 0
      · -- capacity 0: Set is a no-op and the size stays at min(card, 0) = 0
        have hset : Set c now key v = c := Set_of_zero now key v hcap0
        have hP1 : (Set c now key v).size =
            min (((insert key seen).card : Int)) (Set c now key v).capacity := by
          rw [hset, hcap0, min_eq_right (Int.ofNat_nonneg _)]
          rw [hcap0, min_eq_right hcard0] at hsz
          exact hsz
        have hP2 : ∀ k ∈ (Set c now key v).keyMap.map Prod.fst, k ∈ insert key seen := by
          rw [hset]
          intro k hkk
          exact Finset.mem_insert_of_mem (hsub k hkk)
        have hP3 : (((insert key seen).card : Int)) ≤ (Set c now key v).capacity →
            ∀ k ∈ insert key seen, k ∈ (Set c now key v).keyMap.map Prod.fst := by
          intro hle
          exfalso
          have hpos : 0 < (insert key seen).card :=
            Finset.card_pos.2 ⟨key, Finset.mem_insert_self _ _⟩
          rw [hset, hcap0] at hle
          omega
        have hfin := ih (Set c now key v) (insert key seen) hr' hcap' hP1 hP2 hP3
        rw [Set_capacity] at hfin
        exact hfin
      · have hcap1 : (1 : Int) ≤ c.capacity := by omega
        rcases hk : alookup c.keyMap key with _ | e
        · -- new key in the table
          have hknotkeys : key ∉ c.keyMap.map Prod.fst := (alookup_none_iff _ _).1 hk
          have hkey1 : alookup (evict c).keyMap key = none := evict_lookup_none w hk
          by_cases hkseen : key ∈ seen
          · -- previously inserted, since evicted: the cache must be full
            have hgt : ¬ ((seen.card : Int) ≤ c.capacity) := fun hle =>
              hknotkeys (hsup hle key hkseen)
            have hszcap : c.size = c.capacity := by
              rw [min_eq_right (by omega)] at hsz
              exact hsz
            have hfull : c.size ≥ c.capacity := le_of_eq hszcap.symm
            have hbmin := ((ci hcap).2) hszcap hcap1
            obtain ⟨B, vk, e', hb, hB, he', hsize, hlen⟩ := evict_removes w hbmin
            have hins : insert key seen = seen := Finset.insert_eq_self.2 hkseen
            have hsetk : (Set c now key v).keyMap =
                aset (evict c).keyMap key { value := v, frequency := 1, createdAt := now } := by
              rw [Set_of_new now v hcap0 hk, if_pos hfull]
            have hsets : (Set c now key v).size = (evict c).size + 1 := by
              rw [Set_of_new now v hcap0 hk, if_pos hfull]
            have hkeys : (Set c now key v).keyMap.map Prod.fst
                = (evict c).keyMap.map Prod.fst ++ [key] := by
              rw [hsetk]
              exact aset_keys_of_not_mem _ ((alookup_none_iff _ _).1 hkey1)
            have hP1 : (Set c now key v).size =
                min (((insert key seen).card : Int)) (Set c now key v).capacity := by
              rw [hsets, hsize, hins, Set_capacity, min_eq_right (by omega)]
              omega
            have hP2 : ∀ k ∈ (Set c now key v).keyMap.map Prod.fst, k ∈ insert key seen := by
              intro k hkk
              rw [hkeys] at hkk
              rcases List.mem_append.1 hkk with hc | hc
              · exact Finset.mem_insert_of_mem (hsub k (evict_keys_subset hc))
              · rw [List.mem_singleton.1 hc]
                exact Finset.mem_insert_self _ _
            have hP3 : (((insert key seen).card : Int)) ≤ (Set c now key v).capacity →
                ∀ k ∈ insert key seen, k ∈ (Set c now key v).keyMap.map Prod.fst := by
              intro hle
              exfalso
              rw [hins, Set_capacity] at hle
              exact hgt hle
            have hfin := ih (Set c now key v) (insert key seen) hr' hcap' hP1 hP2 hP3
            rw [Set_capacity] at hfin
            exact hfin
          · -- genuinely fresh key
            have hcard' : (insert key seen).card = seen.card + 1 :=
              Finset.card_insert_of_not_mem hkseen
            by_cases hfull : c.size ≥ c.capacity
            · -- full cache: evict one, insert one
              have hszcap : c.size = c.capacity := le_antisymm ((ci hcap).1) hfull
              have hcapcard : c.capacity ≤ (seen.card : Int) := by
                rcases le_total ((seen.card : Int)) c.capacity with h1 | h1
                · rw [min_eq_left h1] at hsz
                  omega
                · exact h1
              have hbmin := ((ci hcap).2) hszcap hcap1
              obtain ⟨B, vk, e', hb, hB, he', hsize, hlen⟩ := evict_removes w hbmin
              have hsetk : (Set c now key v).keyMap =
                  aset (evict c).keyMap key { value := v, frequency := 1, createdAt := now } := by
                rw [Set_of_new now v hcap0 hk, if_pos hfull]
              have hsets : (Set c now key v).size = (evict c).size + 1 := by
                rw [Set_of_new now v hcap0 hk, if_pos hfull]
              have hkeys : (Set c now key v).keyMap.map Prod.fst
                  = (evict c).keyMap.map Prod.fst ++ [key] := by
                rw [hsetk]
                exact aset_keys_of_not_mem _ ((alookup_none_iff _ _).1 hkey1)
              have hP1 : (Set c now key v).size =
                  min (((insert key seen).card : Int)) (Set c now key v).capacity := by
                rw [hsets, hsize, Set_capacity, hcard']
                push_cast
                rw [min_eq_right (by omega)]
                omega
              have hP2 : ∀ k ∈ (Set c now key v).keyMap.map Prod.fst, k ∈ insert key seen := by
                intro k hkk
                rw [hkeys] at hkk
                rcases List.mem_append.1 hkk with hc | hc
                · exact Finset.mem_insert_of_mem (hsub k (evict_keys_subset hc))
                · rw [List.mem_singleton.1 hc]
                  exact Finset.mem_insert_self _ _
              have hP3 : (((insert key seen).card : Int)) ≤ (Set c now key v).capacity →
                  ∀ k ∈ insert key seen, k ∈ (Set c now key v).keyMap.map Prod.fst := by
                intro hle
                exfalso
                rw [Set_capacity, hcard'] at hle
                push_cast at hle
                omega
              have hfin := ih (Set c now key v) (insert key seen) hr' hcap' hP1 hP2 hP3
              rw [Set_capacity] at hfin
              exact hfin
            · -- cache not yet full: plain insert
              have hslt : c.size < c.capacity := lt_of_not_ge hfull
              have hcardsz : (seen.card : Int) = c.size := by
                rcases le_total ((seen.card : Int)) c.capacity with h1 | h1
                · rw [min_eq_left h1] at hsz
                  omega
                · rw [min_eq_right h1] at hsz
                  omega
              have hsetk : (Set c now key v).keyMap =
                  aset c.keyMap key { value := v, frequency := 1, createdAt := now } := by
                rw [Set_of_new now v hcap0 hk, if_neg hfull]
              have hsets : (Set c now key v).size = c.size + 1 := by
                rw [Set_of_new now v hcap0 hk, if_neg hfull]
              have hkeys : (Set c now key v).keyMap.map Prod.fst
                  = c.keyMap.map Prod.fst ++ [key] := by
                rw [hsetk]
                exact aset_keys_of_not_mem _ hknotkeys
              have hP1 : (Set c now key v).size =
                  min (((insert key seen).card : Int)) (Set c now key v).capacity := by
                rw [hsets, Set_capacity, hcard']
                push_cast
                rw [min_eq_left (by omega)]
                omega
              have hP2 : ∀ k ∈ (Set c now key v).keyMap.map Prod.fst, k ∈ insert key seen := by
                intro k hkk
                rw [hkeys] at hkk
                rcases List.mem_append.1 hkk with hc | hc
                · exact Finset.mem_insert_of_mem (hsub k hc)
                · rw [List.mem_singleton.1 hc]
                  exact Finset.mem_insert_self _ _
              have hP3 : (((insert key seen).card : Int)) ≤ (Set c now key v).capacity →
                  ∀ k ∈ insert key seen, k ∈ (Set c now key v).keyMap.map Prod.fst := by
                intro hle k hkmem
                rw [Set_capacity, hcard'] at hle
                push_cast at hle
                rw [hkeys]
                rcases Finset.mem_insert.1 hkmem with hc | hc
                · rw [hc]
                  exact List.mem_append_right _ (List.mem_singleton.2 rfl)
                · exact List.mem_append_left _ (hsup (by omega) k hc)
              have hfin := ih (Set c now key v) (insert key seen) hr' hcap' hP1 hP2 hP3
              rw [Set_capacity] at hfin
              exact hfin
        · -- existing key: promotion only, size and key set unchanged
          have hkeyseen : key ∈ seen := hsub key (mem_keys_of_alookup hk)
          have hins : insert key seen = seen := Finset.insert_eq_self.2 hkeyseen
          have hP1 : (Set c now key v).size =
              min (((insert key seen).card : Int)) (Set c now key v).capacity := by
            rw [Set_size_existing now v hcap0 hk, Set_capacity, hins]
            exact hsz
          have hP2 : ∀ k ∈ (Set c now key v).keyMap.map Prod.fst, k ∈ insert key seen := by
            rw [Set_keys_existing now v hcap0 hk]
            intro k hkk
            exact Finset.mem_insert_of_mem (hsub k hkk)
          have hP3 : (((insert key seen).card : Int)) ≤ (Set c now key v).capacity →
              ∀ k ∈ insert key seen, k ∈ (Set c now key v).keyMap.map Prod.fst := by
            rw [Set_keys_existing now v hcap0 hk, Set_capacity, hins]
            exact hsup
          have hfin := ih (Set c now key v) (insert key seen) hr' hcap' hP1 hP2 hP3
          rw [Set_capacity] at hfin
          exact hfin

/-- C2: capacity discipline.  On every reachable state of a cache built with
non-negative capacity — i.e. after any interleaving of `Get`, `Set`, lazy
expiries, and sweeper passes — `Len` never exceeds the capacity; and for a
sequence consisting only of `Set` operations from a fresh cache (during
which nothing can expire, since `Set` never consults the clock and no `Get`
or sweep runs), `Len` equals `min(number of distinct keys inserted,
capacity)`. -/
theorem c2_capacity_bound :
    (∀ c : Cache K V, Reachable c → 0 ≤ c.capacity → Len c ≤ c.capacity) ∧
    (∀ (cap ttl cleanupInterval : Int) (hcb : Bool) (ops : List (Int × K × V)),
       0 ≤ cap →
       Len (runSets (New cap ttl cleanupInterval hcb) ops) =
         min (((ops.map (fun x => x.2.1)).toFinset.card : Int)) cap) := by
  constructor
  · intro c hr hcap
    exact ((Reachable_CapInv hr) hcap).1
  · intro cap ttl cleanupInterval hcb ops hcap
    have h := c2_aux ops (New cap ttl cleanupInterval hcb) ∅
      (Reachable_New cap ttl cleanupInterval hcb) hcap
      (by
        show (0 : Int) = min ((Finset.card ∅ : Int)) cap
        simp [min_eq_left hcap])
      (by
        intro k hkk
        simp [New] at hkk)
      (by
        intro hle k hkk
        simp at hkk)
    simpa using h

/-- Witness for C2 on a concrete run: capacity 2, inserting keys 0, 1, 0, 2
(three distinct keys) fills the cache to `min(3, 2) = 2`; and the resulting
state respects the bound. -/
theorem c2_capacity_bound_witness :
    Len (runSets (New 2 50 1 false : Cache Nat Nat)
         [(0, 0, 10), (0, 1, 11), (0, 0, 12), (0, 2, 13)]) =
      min ((([(0, (0 : Nat), (10 : Nat)), (0, 1, 11), (0, 0, 12), (0, 2, 13)].map
        (fun x => x.2.1)).toFinset.card : Int)) 2 :=
  (@c2_capacity_bound Nat Nat _).2 2 50 1 false
    [(0, 0, 10), (0, 1, 11), (0, 0, 12), (0, 2, 13)] (by decide)

theorem c8_aux (now : Int) :
    ∀ (l : List (K × EntryV V)) (acc : Cache K V),
      (∀ kv ∈ l, alookup acc.keyMap kv.1 = some kv.2) →
      (l.map Prod.fst).Nodup →
      (acc.keyMap.map Prod.fst).Nodup →
      ((l.foldl (fun a kv => if now - kv.2.createdAt > a.ttl then deleteKey a kv.1 else a)
          acc).evictions =
         acc.evictions +
           (l.filter (fun kv => decide (now - kv.2.createdAt > acc.ttl))).length ∧
       (l.foldl (fun a kv => if now - kv.2.createdAt > a.ttl then deleteKey a kv.1 else a)
          acc).size =
         acc.size -
           (l.filter (fun kv => decide (now - kv.2.createdAt > acc.ttl))).length ∧
       (l.foldl (fun a kv => if now - kv.2.createdAt > a.ttl then deleteKey a kv.1 else a)
          acc).evLog =
         acc.evLog ++
           (if acc.hasCallback then
              (l.filter (fun kv => decide (now - kv.2.createdAt > acc.ttl))).map
                (fun kv => (kv.1, kv.2.value))
            else []) ∧
       (∀ k, alookup (l.foldl
            (fun a kv => if now - kv.2.createdAt > a.ttl then deleteKey a kv.1 else a)
            acc).keyMap k =
          (if k ∈ (l.filter (fun kv => decide (now - kv.2.createdAt > acc.ttl))).map Prod.fst
           then none else alookup acc.keyMap k))) := by
  intro l
  induction l with
  | nil =>
      intro acc hpres hlnd hand
      refine ⟨by simp, by simp, by simp, ?_⟩
      intro k
      simp
  | cons hd tl ih =>
      intro acc hpres hlnd hand
      have hhd : alookup acc.keyMap hd.1 = some hd.2 :=
        hpres hd (List.mem_cons_self _ _)
      simp only [List.map_cons, List.nodup_cons] at hlnd
      by_cases hx : now - hd.2.createdAt > acc.ttl
      · -- the head entry is expired and gets deleted
        simp only [List.foldl_cons, if_pos hx]
        have hpres' : ∀ kv ∈ tl, alookup (deleteKey acc hd.1).keyMap kv.1 = some kv.2 := by
          intro kv hkv
          rw [deleteKey_keyMap hhd]
          have hne : kv.1 ≠ hd.1 := by
            intro heq
            exact hlnd.1 (heq ▸ List.mem_map.2 ⟨kv, hkv, rfl⟩)
          rw [alookup_adel_ne _ hne]
          exact hpres kv (List.mem_cons_of_mem _ hkv)
        have hand' : ((deleteKey acc hd.1).keyMap.map Prod.fst).Nodup := by
          rw [deleteKey_keyMap hhd]
          exact adel_keys_nodup _ hand
        obtain ⟨ihe, ihs, ihl, ihk⟩ := ih (deleteKey acc hd.1) hpres' hlnd.2 hand'
        rw [deleteKey_ttl] at ihe ihs ihl ihk
        have hftl : (List.filter (fun kv => decide (now - kv.2.createdAt > acc.ttl))
            (hd :: tl)) = hd :: (List.filter
              (fun kv => decide (now - kv.2.createdAt > acc.ttl)) tl) := by
          simp [List.filter_cons, hx]
        refine ⟨?_, ?_, ?_, ?_⟩
        · rw [ihe, deleteKey_evictions hhd, hftl]
          simp only [List.length_cons]
          omega
        · rw [ihs, deleteKey_size hhd, hftl]
          simp only [List.length_cons]
          push_cast
          omega
        · rw [ihl, deleteKey_evLog hhd, hftl]
          by_cases hcb : acc.hasCallback
          · rw [deleteKey_hasCallback, if_pos hcb, if_pos hcb, if_pos hcb]
            simp [List.append_assoc]
          · rw [deleteKey_hasCallback, if_neg hcb, if_neg hcb, if_neg hcb]
        · intro k
          rw [ihk k, hftl]
          simp only [List.map_cons, List.mem_cons]
          by_cases h1 : k ∈ (List.filter
              (fun kv => decide (now - kv.2.createdAt > acc.ttl)) tl).map Prod.fst
          · rw [if_pos h1, if_pos (Or.inr h1)]
          · rw [if_neg h1]
            rw [deleteKey_keyMap hhd, alookup_adel_eq _ _ _ hand]
            by_cases h2 : k = hd.1
            · rw [if_pos h2, if_pos (Or.inl h2)]
            · have hnotin : ¬ (k = hd.1 ∨ k ∈ (List.filter
                  (fun kv => decide (now - kv.2.createdAt > acc.ttl)) tl).map Prod.fst) := by
                push_neg
                exact ⟨h2, h1⟩
              rw [if_neg h2, if_neg hnotin]
      · -- the head entry survives
        simp only [List.foldl_cons, if_neg hx]
        have hpres' : ∀ kv ∈ tl, alookup acc.keyMap kv.1 = some kv.2 := fun kv hkv =>
          hpres kv (List.mem_cons_of_mem _ hkv)
        obtain ⟨ihe, ihs, ihl, ihk⟩ := ih acc hpres' hlnd.2 hand
        have hftl : (List.filter (fun kv => decide (now - kv.2.createdAt > acc.ttl))
            (hd :: tl)) = (List.filter
              (fun kv => decide (now - kv.2.createdAt > acc.ttl)) tl) := by
          simp [List.filter_cons, hx]
        rw [hftl]
        exact ⟨ihe, ihs, ihl, ihk⟩

/-- C8: one sweeper pass at time `now` removes exactly the entries whose age
exceeds the TTL; every unexpired entry keeps its value, frequency and
timestamp untouched; no key appears from nowhere; the eviction counter grows
by exactly the number of removed entries, the size shrinks by the same
number, and the callback log gains exactly one `(key, value)` record per
removed entry (none when no callback is registered). -/
theorem c8_sweeper_pass {c : Cache K V} (hnd : (c.keyMap.map Prod.fst).Nodup)
    (now : Int) :
    (∀ k e, alookup c.keyMap k = some e → now - e.createdAt > c.ttl →
       alookup (cleanupExpired c now).keyMap k = none) ∧
    (∀ k e, alookup c.keyMap k = some e → now - e.createdAt ≤ c.ttl →
       alookup (cleanupExpired c now).keyMap k = some e) ∧
    (∀ k, alookup c.keyMap k = none →
       alookup (cleanupExpired c now).keyMap k = none) ∧
    (cleanupExpired c now).evictions = c.evictions +
      (c.keyMap.filter (fun kv => decide (now - kv.2.createdAt > c.ttl))).length ∧
    (cleanupExpired c now).size = c.size -
      (c.keyMap.filter (fun kv => decide (now - kv.2.createdAt > c.ttl))).length ∧
    (cleanupExpired c now).evLog = c.evLog ++
      (if c.hasCallback then
         (c.keyMap.filter (fun kv => decide (now - kv.2.createdAt > c.ttl))).map
           (fun kv => (kv.1, kv.2.value))
       else []) := by
  unfold cleanupExpired
  have hpres : ∀ kv ∈ c.keyMap, alookup c.keyMap kv.1 = some kv.2 := by
    intro kv hkv
    exact alookup_of_mem hnd hkv
  obtain ⟨ihe, ihs, ihl, ihk⟩ := c8_aux now c.keyMap c hpres hnd hnd
  have hexp : ∀ k, k ∈ (c.keyMap.filter
      (fun kv => decide (now - kv.2.createdAt > c.ttl))).map Prod.fst ↔
      (∃ e, alookup c.keyMap k = some e ∧ now - e.createdAt > c.ttl) := by
    intro k
    constructor
    · intro hmem
      obtain ⟨kv, hkv, hfst⟩ := List.mem_map.1 hmem
      obtain ⟨hkvm, hp⟩ := List.mem_filter.1 hkv
      refine ⟨kv.2, ?_, by simpa using hp⟩
      rw [← hfst]
      exact alookup_of_mem hnd hkvm
    · intro ⟨e, hke, hxe⟩
      refine List.mem_map.2 ⟨(k, e), ?_, rfl⟩
      refine List.mem_filter.2 ⟨mem_of_alookup hke, by simpa using hxe⟩
  refine ⟨?_, ?_, ?_, ihe, ihs, ihl⟩
  · intro k e hke hxe
    rw [ihk k, if_pos ((hexp k).2 ⟨e, hke, hxe⟩)]
  · intro k e hke hxe
    rw [ihk k, if_neg ?_]
    · exact hke
    · intro hmem
      obtain ⟨e', hke', hxe'⟩ := (hexp k).1 hmem
      rw [hke] at hke'
      injection hke' with hke'
      rw [← hke'] at hxe'
      omega
  · intro k hke
    rw [ihk k, if_neg ?_]
    · exact hke
    · intro hmem
      obtain ⟨e', hke', _⟩ := (hexp k).1 hmem
      rw [hke] at hke'
      cases hke'

/-- Witness for C8 on a concrete cache where exactly one of two entries is
past its TTL at sweep time 11. -/
theorem c8_sweeper_pass_witness :
    alookup c8cache.keyMap 0 = some ⟨1, 1, 0⟩ ∧
    ((11 : Int) - 0 > c8cache.ttl) ∧
    alookup (cleanupExpired c8cache 11).keyMap 0 = none ∧
    (cleanupExpired c8cache 11).evictions = c8cache.evictions +
      (c8cache.keyMap.filter (fun kv => decide (11 - kv.2.createdAt > c8cache.ttl))).length := by
  have h := c8_sweeper_pass
    (show (c8cache.keyMap.map Prod.fst).Nodup by decide) 11
  exact ⟨by decide, by decide, h.1 0 ⟨1, 1, 0⟩ (by decide) (by decide), h.2.2.2.1⟩

theorem alookup_eraseT (km : List (K × EntryV V)) (k : K) :
    alookup (eraseT km) k = (alookup km k).map eEntry := by
  induction km with
  | nil => rfl
  | cons hd tl ih =>
      by_cases h : k = hd.1
      · simp [eraseT, List.map_cons, alookup_cons, h]
      · simp only [eraseT, List.map_cons, alookup_cons, if_neg h] at ih ⊢
        exact ih

theorem eraseT_aset (km : List (K × EntryV V)) (k : K) (e : EntryV V) :
    eraseT (aset km k e) = aset (eraseT km) k (eEntry e) := by
  induction km with
  | nil => rfl
  | cons hd tl ih =>
      by_cases h : k = hd.1
      · simp [eraseT, aset_cons, List.map_cons, h]
      · simp only [eraseT, List.map_cons, aset_cons, if_neg h] at ih ⊢
        rw [ih]

theorem eraseT_adel (km : List (K × EntryV V)) (k : K) :
    eraseT (adel km k) = adel (eraseT km) k := by
  induction km with
  | nil => rfl
  | cons hd tl ih =>
      by_cases h : k = hd.1
      · simp [eraseT, adel_cons, List.map_cons, h]
      · simp only [eraseT, List.map_cons, adel_cons, if_neg h] at ih ⊢
        rw [ih]

theorem sim_increment {c : Cache K V} {p : PlainCache K V} (hs : simR c p)
    (key : K) : simR (increment c key) (pincrement p key) := by
  obtain ⟨pc, ps, pkm, pfm, pmf⟩ := p
  obtain ⟨hcap, hsz, hmf, hfm, hkm⟩ := hs
  simp only at hcap hsz hmf hfm hkm
  subst hcap hsz hmf hfm hkm
  rcases hk : alookup c.keyMap key with _ | e
  · have hpk : alookup (eraseT c.keyMap) key = none := by
      rw [alookup_eraseT, hk]
      rfl
    rw [increment_of_none hk]
    rw [show pincrement ⟨c.capacity, c.size, eraseT c.keyMap, c.freqMap, c.minFreq⟩ key =
        ⟨c.capacity, c.size, eraseT c.keyMap, c.freqMap, c.minFreq⟩ from by
      simp [pincrement, hpk]]
    exact ⟨rfl, rfl, rfl, rfl, rfl⟩
  · have hpk : alookup (eraseT c.keyMap) key = some (eEntry e) := by
      rw [alookup_eraseT, hk]
      rfl
    simp only [increment, pincrement, hk, hpk]
    refine ⟨rfl, rfl, rfl, rfl, ?_⟩
    show aset (eraseT c.keyMap) key _ = eraseT (aset c.keyMap key _)
    rw [eraseT_aset]
    rfl

theorem sim_evict {c : Cache K V} {p : PlainCache K V} (w : WF c)
    (hs : simR c p) : simR (evict c) (pevict p) := by
  obtain ⟨pc, ps, pkm, pfm, pmf⟩ := p
  obtain ⟨hcap, hsz, hmf, hfm, hkm⟩ := hs
  simp only at hcap hsz hmf hfm hkm
  subst hcap hsz hmf hfm hkm
  rcases hb : alookup c.freqMap c.minFreq with _ | B
  · rw [evict_of_no_bucket hb]
    rw [show pevict ⟨c.capacity, c.size, eraseT c.keyMap, c.freqMap, c.minFreq⟩ =
        ⟨c.capacity, c.size, eraseT c.keyMap, c.freqMap, c.minFreq⟩ from by
      simp [pevict, hb]]
    exact ⟨rfl, rfl, rfl, rfl, rfl⟩
  · rcases hB : B.getLast? with _ | vk
    · rw [evict_of_empty_bucket hb hB]
      rw [show pevict ⟨c.capacity, c.size, eraseT c.keyMap, c.freqMap, c.minFreq⟩ =
          ⟨c.capacity, c.size, eraseT c.keyMap, c.freqMap, c.minFreq⟩ from by
        simp [pevict, hb, hB]]
      exact ⟨rfl, rfl, rfl, rfl, rfl⟩
    · have hvkB : vk ∈ B := by
        have hsplit := List.dropLast_append_getLast? vk hB
        rw [← hsplit]
        exact List.mem_append_right _ (List.mem_singleton.2 rfl)
      obtain ⟨e, he, _⟩ := w.bucket_freq _ _ hb vk hvkB
      simp only [evict, pevict, hb, hB, he]
      refine ⟨rfl, rfl, rfl, rfl, ?_⟩
      show adel (eraseT c.keyMap) vk = eraseT (adel c.keyMap vk)
      rw [eraseT_adel]

theorem sim_insert {c1 : Cache K V} {p1 : PlainCache K V} (hs1 : simR c1 p1)
    (key : K) (v : V) (now : Int) :
    simR
      { c1 with
          keyMap := aset c1.keyMap key { value := v, frequency := 1, createdAt := now },
          freqMap := aset c1.freqMap 1 (key :: bucketOf c1 1),
          minFreq := 1,
          size := c1.size + 1 }
      { p1 with
          keyMap := aset p1.keyMap key { value := v, frequency := 1, createdAt := 0 },
          freqMap := aset p1.freqMap 1 (key :: pbucketOf p1 1),
          minFreq := 1,
          size := p1.size + 1 } := by
  obtain ⟨g1, g2, g3, g4, g5⟩ := hs1
  have hb : pbucketOf p1 1 = bucketOf c1 1 := by
    unfold pbucketOf bucketOf
    rw [g4]
  refine ⟨g1, ?_, rfl, ?_, ?_⟩
  · show p1.size + 1 = c1.size + 1
    rw [g2]
  · show aset p1.freqMap 1 (key :: pbucketOf p1 1)
      = aset c1.freqMap 1 (key :: bucketOf c1 1)
    rw [g4, hb]
  · show aset p1.keyMap key { value := v, frequency := 1, createdAt := 0 }
      = eraseT (aset c1.keyMap key { value := v, frequency := 1, createdAt := now })
    rw [eraseT_aset, g5]
    rfl

theorem sim_Set {c : Cache K V} {p : PlainCache K V} (w : WF c) (hs : simR c p)
    (now : Int) (key : K) (v : V) : simR (Set c now key v) (pSet p key v) := by
  have hcap := hs.1
  by_cases hcap0 : c.capacity = 0
  · rw [Set_of_zero now key v hcap0]
    rw [show pSet p key v = p from by
      rw [pSet, if_pos (by rw [hcap]; exact hcap0)]]
    exact hs
  · obtain ⟨pc, ps, pkm, pfm, pmf⟩ := p
    obtain ⟨hcap', hsz, hmf, hfm, hkm⟩ := hs
    simp only at hcap' hsz hmf hfm hkm
    subst hcap' hsz hmf hfm hkm
    rcases hk : alookup c.keyMap key with _ | e
    · have hpk : alookup (eraseT c.keyMap) key = none := by
        rw [alookup_eraseT, hk]
        rfl
      have hps : pSet ⟨c.capacity, c.size, eraseT c.keyMap, c.freqMap, c.minFreq⟩ key v =
          { (if c.size ≥ c.capacity
             then pevict ⟨c.capacity, c.size, eraseT c.keyMap, c.freqMap, c.minFreq⟩
             else ⟨c.capacity, c.size, eraseT c.keyMap, c.freqMap, c.minFreq⟩) with
              keyMap := aset (if c.size ≥ c.capacity
                then pevict ⟨c.capacity, c.size, eraseT c.keyMap, c.freqMap, c.minFreq⟩
                else ⟨c.capacity, c.size, eraseT c.keyMap, c.freqMap, c.minFreq⟩).keyMap key
                { value := v, frequency := 1, createdAt := 0 },
              freqMap := aset (if c.size ≥ c.capacity
                then pevict ⟨c.capacity, c.size, eraseT c.keyMap, c.freqMap, c.minFreq⟩
                else ⟨c.capacity, c.size, eraseT c.keyMap, c.freqMap, c.minFreq⟩).freqMap 1
                (key :: pbucketOf (if c.size ≥ c.capacity
                  then pevict ⟨c.capacity, c.size, eraseT c.keyMap, c.freqMap, c.minFreq⟩
                  else ⟨c.capacity, c.size, eraseT c.keyMap, c.freqMap, c.minFreq⟩) 1),
              minFreq := 1,
              size := (if c.size ≥ c.capacity
                then pevict ⟨c.capacity, c.size, eraseT c.keyMap, c.freqMap, c.minFreq⟩
                else ⟨c.capacity, c.size, eraseT c.keyMap, c.freqMap, c.minFreq⟩).size + 1 } := by
        simp [pSet, hcap0, hpk]
      rw [Set_of_new now v hcap0 hk, hps]
      have hsim1 : simR (if c.size ≥ c.capacity then evict c else c)
          (if c.size ≥ c.capacity
           then pevict ⟨c.capacity, c.size, eraseT c.keyMap, c.freqMap, c.minFreq⟩
           else ⟨c.capacity, c.size, eraseT c.keyMap, c.freqMap, c.minFreq⟩) := by
        split_ifs with hfull
        · exact sim_evict w ⟨rfl, rfl, rfl, rfl, rfl⟩
        · exact ⟨rfl, rfl, rfl, rfl, rfl⟩
      exact sim_insert hsim1 key v now
    · have hpk : alookup (eraseT c.keyMap) key = some (eEntry e) := by
        rw [alookup_eraseT, hk]
        rfl
      rw [Set_of_existing now v hcap0 hk]
      rw [show pSet ⟨c.capacity, c.size, eraseT c.keyMap, c.freqMap, c.minFreq⟩ key v =
          pincrement ⟨c.capacity, c.size,
            aset (eraseT c.keyMap) key { eEntry e with value := v },
            c.freqMap, c.minFreq⟩ key from by
        simp [pSet, hcap0, hpk]]
      have hrel : simR
          { c with keyMap := aset c.keyMap key { e with value := v, createdAt := now } }
          ⟨c.capacity, c.size,
            aset (eraseT c.keyMap) key { eEntry e with value := v },
            c.freqMap, c.minFreq⟩ := by
        refine ⟨rfl, rfl, rfl, rfl, ?_⟩
        show aset (eraseT c.keyMap) key _ = eraseT (aset c.keyMap key _)
        rw [eraseT_aset]
        rfl
      exact sim_increment hrel key



theorem sim_Get {c : Cache K V} {p : PlainCache K V} (hs : simR c p)
    (now : Int) (key : K)
    (hfr : ∀ e, alookup c.keyMap key = some e → now - e.createdAt ≤ c.ttl) :
    (Get c now key).1 = (pGet p key).1 ∧ simR (Get c now key).2 (pGet p key).2 := by
  have hkm := hs.2.2.2.2
  rcases hk : alookup c.keyMap key with _ | e
  · have hpk : alookup p.keyMap key = none := by
      rw [hkm, alookup_eraseT, hk]
      rfl
    rw [Get_of_none now hk]
    rw [show pGet p key = (none, p) from by simp [pGet, hpk]]
    exact ⟨rfl, hs.1, hs.2.1, hs.2.2.1, hs.2.2.2.1, hkm⟩
  · have hpk : alookup p.keyMap key = some (eEntry e) := by
      rw [hkm, alookup_eraseT, hk]
      rfl
    have hx : ¬ now - e.createdAt > c.ttl := by
      have := hfr e hk
      omega
    rw [Get_of_hit hk hx]
    rw [show pGet p key = (some (eEntry e).value, pincrement p key) from by
      simp [pGet, hpk]]
    have hsi := sim_increment hs key
    exact ⟨rfl, hsi.1, hsi.2.1, hsi.2.2.1, hsi.2.2.2.1, hsi.2.2.2.2⟩

theorem c10_aux :
    ∀ (ops : List (COp K V)) (c : Cache K V) (p : PlainCache K V),
      WF c → simR c p → goodRun c ops → trace c ops = ptrace p ops := by
  intro ops
  induction ops with
  | nil =>
      intro c p _ _ _
      rfl
  | cons op rest ih =>
      intro c p w hs hg
      rcases op with ⟨now, k⟩ | ⟨now, k, v⟩ | _ | now
      · obtain ⟨hg1, hg2⟩ := hg
        have hfr : ∀ e, alookup c.keyMap k = some e → now - e.createdAt ≤ c.ttl := by
          intro e hk
          exact hg1 (k, e) (mem_of_alookup hk)
        obtain ⟨h1, h2⟩ := sim_Get hs now k hfr
        show Obs.got (Get c now k).1 :: trace (Get c now k).2 rest
            = Obs.got (pGet p k).1 :: ptrace (pGet p k).2 rest
        rw [h1, ih (Get c now k).2 (pGet p k).2 (WF_Get w now k) h2 hg2]
      · obtain ⟨hg1, hg2⟩ := hg
        show Obs.done :: trace (Set c now k v) rest
            = Obs.done :: ptrace (pSet p k v) rest
        rw [ih _ _ (WF_Set w now k v) (sim_Set w hs now k v) hg2]
      · obtain ⟨hg1, hg2⟩ := hg
        show Obs.length (Len c) :: trace c rest
            = Obs.length (pLen p) :: ptrace p rest
        rw [show pLen p = Len c from hs.2.1]
        rw [ih _ _ w hs hg2]
      · obtain ⟨hg1, hg2⟩ := hg
        exact hg1.elim

/-- C10: in the absence of expiry, the TTL cache refines the plain LFU cache.
For a fixed capacity `≥ 1` and any sequence of `Get`/`Set`/`Len` calls during
which no entry's age ever exceeds the TTL and no sweeper pass runs
(`goodRun`), the TTL-enabled cache and the plain cache return the same
observable result for every call in the sequence. -/
theorem c10_ttl_plain_equivalence (cap ttl cleanupInterval : Int) (hcb : Bool)
    (hcap : 1 ≤ cap) (ops : List (COp K V))
    (hgood : goodRun (New cap ttl cleanupInterval hcb) ops) :
    trace (New cap ttl cleanupInterval hcb : Cache K V) ops
      = ptrace (PNew cap) ops := by
  refine c10_aux ops _ _ (WF_New cap ttl cleanupInterval hcb) ?_ hgood
  exact ⟨rfl, rfl, rfl, rfl, rfl⟩

/-- Witness for C10 on a concrete fresh run. -/
theorem c10_ttl_plain_equivalence_witness :
    goodRun (New 2 50 1 false : Cache Nat Nat) [COp.set 0 0 5, COp.get 0 0, COp.len] ∧
    trace (New 2 50 1 false : Cache Nat Nat) [COp.set 0 0 5, COp.get 0 0, COp.len]
      = ptrace (PNew 2) [COp.set 0 0 5, COp.get 0 0, COp.len] := by
  have hg : goodRun (New 2 50 1 false : Cache Nat Nat)
      [COp.set 0 0 5, COp.get 0 0, COp.len] :=
    ⟨show fresh (New 2 50 1 false) 0 by unfold fresh; decide,
     show fresh (applyOp (New 2 50 1 false) (COp.set 0 0 5)) 0 by unfold fresh; decide,
     trivial, trivial⟩
  exact ⟨hg, c10_ttl_plain_equivalence 2 50 1 false (by decide) _ hg⟩

end Claims

end LFU
